import Mathlib

/-!
# FM-index over a generalized suffix array (`src/SuffixTools/BWT.cpp`)

A shallow embedding of `BWT.cpp`: the constructor that derives the BWT string
and the cumulative table from a suffix array, the `LF` mapping, the exact
`backwardSearch`, the overlap search `getPrefixHits` and the two stream
operators that persist the index.

Conventions of the embedding.

* `std::string` is `List Char`; the alphabet is `$ < A < C < G < T`, which is
  also the order of the character codes.
* `size_t` values are natural numbers below `2 ^ 64`; every `size_t` sum of
  `LF` and `getPrefixHits` is reduced modulo `2 ^ 64` and `x - 1` is `sizeDec`,
  which is `2 ^ 64 - 1` at `x = 0` as in the source.  The `int` bounds of
  `backwardSearch` are kept as 32-bit two's complement patterns.
* The loop index `j` of the two search loops counts down from `len - 2` to
  `0`; it is a structural recursion on a natural number.
* The only loop of the file that can fail to terminate is the hit-emission
  loop of `getPrefixHits`; it takes a fuel argument and reports the hits
  appended so far when the fuel runs out.
* A stream is the list of its characters; formatted input skips white space,
  and a failed extraction is `none`.
-/

namespace SGA

/-! ## Collaborators that are not part of `BWT.cpp` -/

/-- The number of values of a `size_t`. -/
def SIZE : Nat := 2 ^ 64

/-- The `size_t` subtraction `x - 1`, which wraps at `x = 0`. -/
def sizeDec (x : Nat) : Nat := if x = 0 then SIZE - 1 else x - 1

/-- Membership in the four-letter base alphabet. -/
def isBase (c : Char) : Prop := c = 'A' ∨ c = 'C' ∨ c = 'G' ∨ c = 'T'

instance (c : Char) : Decidable (isBase c) := by unfold isBase; infer_instance

/-- Membership in the index alphabet: the sentinel or a base. -/
def isSymbol (c : Char) : Prop := c = '$' ∨ isBase c

instance (c : Char) : Decidable (isSymbol c) := by unfold isSymbol; infer_instance

/-- Modelled from the spec: `AlphaCount` (declared in `STCommon.h`, which is
missing from the tree), a fixed array of one counter per alphabet symbol in the
order `$ A C G T`.  The spec makes a lookup with a symbol outside the alphabet
a precondition violation; this model reads `0` there and ignores a write, and
every statement below keeps symbols inside the alphabet. -/
structure AlphaCount where
  nSent : Nat
  nA : Nat
  nC : Nat
  nG : Nat
  nT : Nat
deriving DecidableEq, Repr

/-- The default-constructed counter: all zero. -/
def AlphaCount.zero : AlphaCount := ⟨0, 0, 0, 0, 0⟩

/-- Modelled from the spec: `AlphaCount::get`, the current count of a symbol. -/
def AlphaCount.get (a : AlphaCount) (c : Char) : Nat :=
  if c = '$' then a.nSent
  else if c = 'A' then a.nA
  else if c = 'C' then a.nC
  else if c = 'G' then a.nG
  else if c = 'T' then a.nT
  else 0

/-- Modelled from the spec: `AlphaCount::set`, overwrite the count of a symbol. -/
def AlphaCount.set (a : AlphaCount) (c : Char) (v : Nat) : AlphaCount :=
  if c = '$' then { a with nSent := v }
  else if c = 'A' then { a with nA := v }
  else if c = 'C' then { a with nC := v }
  else if c = 'G' then { a with nG := v }
  else if c = 'T' then { a with nT := v }
  else a

/-- Modelled from the spec: `AlphaCount::increment`, add one to a symbol's count. -/
def AlphaCount.increment (a : AlphaCount) (c : Char) : AlphaCount :=
  a.set c (a.get c + 1)

/-- Modelled from the spec: `Occurance::get(bwStr, c, idx)` (`Occurance.h` is
missing from the tree).  The spec's contract is that `rank(c, i)` is the number
of occurrences of `c` among the positions `0..i` inclusive of the BWT string and
that `rank(c, -1) = 0`; the index is a `size_t`, where `-1` is `2 ^ 64 - 1`.
The sampled table behind the answer is not modelled. -/
def Occurance.get (bwStr : List Char) (c : Char) (idx : Nat) : Nat :=
  if idx = SIZE - 1 then 0 else (bwStr.take (idx + 1)).count c

/-- One suffix-array element: a sequence id and an offset into that sequence. -/
structure SAElem where
  id : Nat
  pos : Nat
deriving DecidableEq, Repr

/-- The suffix array as `BWT.cpp` uses it: `get(i)`, `getSize()` and
`getNumStrings()`. -/
structure SuffixArray where
  elems : List SAElem
  numStrings : Nat
deriving DecidableEq, Repr

/-- Size of the suffix array, `pSA->getSize()`. -/
def SuffixArray.getSize (sa : SuffixArray) : Nat := sa.elems.length

/-- One entry of the read table; only its sequence is used by `BWT.cpp`. -/
structure SeqItem where
  seq : List Char
deriving DecidableEq, Repr

/-- The read table: sequence id to sequence. -/
abbrev ReadTable := List SeqItem

/-- One overlap hit, with the fields in the order of the constructor call
`Hit(readIdx, sa_idx, j, overlapLen, targetRev, queryRev)`. -/
structure Hit where
  readIdx : Nat
  saIdx : Nat
  qstart : Int
  len : Int
  targetRev : Bool
  queryRev : Bool
deriving DecidableEq, Repr

/-! ## The index record and its constructor (`BWT.cpp` lines 27-63) -/

/-- The FM-index record: the cumulative table `m_predCount`, the BWT string
`m_bwStr` and `m_numStrings`.  The rank table `m_occurance` is a function of
`m_bwStr` (see `Occurance.get`) and has no field of its own. -/
structure BWT where
  predCount : AlphaCount
  bwStr : List Char
  numStrings : Nat
deriving DecidableEq, Repr

/-- Body of the construction loop (lines 37-43) for one suffix-array element.
`getRead` with an id outside the table and `seq.get` with a position outside
the sequence fail. -/
def bwSymbol (pRT : ReadTable) (saElem : SAElem) : Option Char := do
  let si ← pRT[saElem.id]?
  let f_pos := saElem.pos
  let l_pos := if f_pos = 0 then si.seq.length else f_pos - 1
  if l_pos = si.seq.length then pure '$' else si.seq[l_pos]?

/-- The cumulative table of lines 52-62, from the finished BWT string. -/
def buildPredCount (bwStr : List Char) : AlphaCount :=
  let tmp := bwStr.foldl AlphaCount.increment AlphaCount.zero
  let pc := AlphaCount.zero.set '$' 0
  let pc := pc.set 'A' (tmp.get '$')
  let pc := pc.set 'C' (pc.get 'A' + tmp.get 'A')
  let pc := pc.set 'G' (pc.get 'C' + tmp.get 'C')
  pc.set 'T' (pc.get 'G' + tmp.get 'G')

/-- The constructor `BWT::BWT(const SuffixArray*, const ReadTable*)`. -/
def BWT.construct (pSA : SuffixArray) (pRT : ReadTable) : Option BWT := do
  let bwStr ← pSA.elems.mapM (bwSymbol pRT)
  pure { predCount := buildPredCount bwStr, bwStr := bwStr, numStrings := pSA.numStrings }

/-- The macro `PRED(c)`. -/
def BWT.PRED (b : BWT) (c : Char) : Nat := b.predCount.get c

/-- The macro `OCC(c, i)`. -/
def BWT.OCC (b : BWT) (c : Char) (i : Nat) : Nat := Occurance.get b.bwStr c i

/-! ## `LF` (lines 66-69) -/

/-- The last-to-first mapping `BWT::LF`; reading `m_bwStr[idx]` needs
`idx < N`. -/
def BWT.LF (b : BWT) (idx : Nat) : Option Nat := do
  let c ← b.bwStr[idx]?
  pure (if c ≠ '$' then (b.PRED c + b.OCC c idx) % SIZE else 0)

/-! ## `backwardSearch` (lines 72-95) -/

/-- Conversion of a `size_t` value to `int`: the low 32 bits, kept as the
two's complement pattern. -/
def intOfSize (x : Nat) : Nat := x % 2 ^ 32

/-- Conversion of an `int` pattern to `size_t`: sign extension. -/
def sizeOfInt (p : Nat) : Nat := if p < 2 ^ 31 then p else p + (2 ^ 64 - 2 ^ 32)

/-- The `int` subtraction `x - 1` on patterns. -/
def intDec (p : Nat) : Nat := if p = 0 then 2 ^ 32 - 1 else p - 1

/-- The integer that an `int` pattern stands for. -/
def intVal (p : Nat) : Int := if p < 2 ^ 31 then (p : Int) else (p : Int) - 2 ^ 32

/-- The loop of lines 82-92 on `int` patterns: `j + 1` characters are left,
`w[j]` is next. -/
def BWT.backwardSearchLoop (b : BWT) (w : List Char) : Nat → Nat → Nat → Nat × Nat
  | 0, r_lower, r_upper => (r_lower, r_upper)
  | j + 1, r_lower, r_upper =>
    let curr := w.getD j '$'
    let r_lower1 := intOfSize ((b.PRED curr + b.OCC curr (sizeOfInt (intDec r_lower))) % SIZE)
    let r_upper1 := intOfSize (sizeDec ((b.PRED curr + b.OCC curr (sizeOfInt r_upper)) % SIZE))
    b.backwardSearchLoop w j r_lower1 r_upper1

/-- The `int` patterns of `r_lower` and `r_upper` when `BWT::backwardSearch`
leaves its loop.  The source reads `w[len - 1]` unconditionally, so `w` is
non-empty in every statement about it. -/
def BWT.backwardSearchBits (b : BWT) (w : List Char) : Nat × Nat :=
  let len := w.length
  let j := len - 1
  let curr := w.getD j '$'
  let r_lower := intOfSize (b.PRED curr)
  let r_upper := intOfSize (sizeDec ((sizeOfInt r_lower +
    b.OCC curr (sizeDec b.bwStr.length)) % SIZE))
  b.backwardSearchLoop w j r_lower r_upper

/-- The interval that `BWT::backwardSearch` prints as "Interval found". -/
def BWT.backwardSearch (b : BWT) (w : List Char) : Int × Int :=
  (intVal (b.backwardSearchBits w).1, intVal (b.backwardSearchBits w).2)

/-! ## `getPrefixHits` (lines 98-135) -/

/-- The emission loop of lines 131-132,
`for(size_t sa_idx = t_lower; sa_idx <= t_upper; ++sa_idx) push_back(...)`.
`Except.ok` is the vector when the loop has ended, `Except.error` the vector
reached when the fuel ran out. -/
def pushHits (mkHit : Nat → Hit) (t_upper : Nat) :
    Nat → Nat → List Hit → Except (List Hit) (List Hit)
  | 0, _, hits => .error hits
  | fuel + 1, sa_idx, hits =>
    if sa_idx ≤ t_upper then
      pushHits mkHit t_upper fuel ((sa_idx + 1) % SIZE) (hits ++ [mkHit sa_idx])
    else .ok hits

/-- The loop of lines 110-134: `j + 1` characters are left, `w[j]` is next. -/
def BWT.getPrefixHitsLoop (b : BWT) (fuel : Nat) (readIdx : Nat) (w : List Char)
    (minOverlap : Int) (targetRev queryRev : Bool) :
    Nat → Nat → Nat → List Hit → Except (List Hit) (List Hit)
  | 0, _, _, hits => .ok hits
  | j + 1, r_lower, r_upper, hits =>
    let curr := w.getD j '$'
    let r_lower1 := (b.PRED curr + b.OCC curr (sizeDec r_lower)) % SIZE
    let r_upper1 := sizeDec ((b.PRED curr + b.OCC curr r_upper) % SIZE)
    let overlapLen : Int := (w.length : Int) - (j : Int)
    if overlapLen ≥ minOverlap then
      let t_lower := (b.PRED '$' + b.OCC '$' (sizeDec r_lower1)) % SIZE
      let t_upper := sizeDec ((b.PRED '$' + b.OCC '$' r_upper1) % SIZE)
      match pushHits (fun sa_idx => ⟨readIdx, sa_idx, j, overlapLen, targetRev, queryRev⟩)
          t_upper fuel t_lower hits with
      | .ok hits1 => b.getPrefixHitsLoop fuel readIdx w minOverlap targetRev queryRev j
          r_lower1 r_upper1 hits1
      | .error hits1 => .error hits1
    else
      b.getPrefixHitsLoop fuel readIdx w minOverlap targetRev queryRev j r_lower1 r_upper1 hits

/-- The initial interval of lines 104-105, from the last character of `w`. -/
def BWT.initInterval (b : BWT) (w : List Char) : Nat × Nat :=
  let curr := w.getD (w.length - 1) '$'
  let r_lower := b.PRED curr % SIZE
  let r_upper := sizeDec ((r_lower + b.OCC curr (sizeDec b.bwStr.length)) % SIZE)
  (r_lower, r_upper)

/-- The overlap search `BWT::getPrefixHits`; `hits` is the content of `*pHits`
at the call, `fuel` bounds each run of the emission loop.  The source reads
`w[len - 1]` unconditionally, so `w` is non-empty in every statement about it. -/
def BWT.getPrefixHits (b : BWT) (fuel : Nat) (readIdx : Nat) (w : List Char)
    (minOverlap : Int) (targetRev queryRev : Bool) (hits : List Hit) :
    Except (List Hit) (List Hit) :=
  b.getPrefixHitsLoop fuel readIdx w minOverlap targetRev queryRev (w.length - 1)
    (b.initInterval w).1 (b.initInterval w).2 hits

/-- The interval `(r_lower, r_upper)` of `getPrefixHits` after the step that
reads `w[j]`, that is the loop of lines 110-120 without the emission. -/
def BWT.extendLoop (b : BWT) (w : List Char) : Nat → Nat → Nat → Nat × Nat
  | 0, r_lower, r_upper => (r_lower, r_upper)
  | j + 1, r_lower, r_upper =>
    let curr := w.getD j '$'
    let r_lower1 := (b.PRED curr + b.OCC curr (sizeDec r_lower)) % SIZE
    let r_upper1 := sizeDec ((b.PRED curr + b.OCC curr r_upper) % SIZE)
    b.extendLoop w j r_lower1 r_upper1

/-! ## Serialisation (`BWT.cpp` lines 143-167)

The stream is the list of its characters.  A reader takes the unread part of
the stream and gives the value read and what is left, or `none` when the
extraction fails. -/

/-- White space of formatted stream input. -/
def isSpace (c : Char) : Bool :=
  c = ' ' || c = '\n' || c = '\t' || c = '\r' || c = '\x0b' || c = '\x0c'

/-- Decimal digits. -/
def isDigit (c : Char) : Bool := decide ('0' ≤ c) && decide (c ≤ '9')

/-- The character of a decimal digit. -/
def digitChar (d : Nat) : Char := Char.ofNat (48 + d)

/-- The stream output `out << n` of a `size_t`: its decimal digits. -/
def writeNat (n : Nat) : List Char :=
  if n = 0 then ['0'] else ((Nat.digits 10 n).reverse).map digitChar

/-- The value of a run of decimal digits. -/
def digitsToNat (ds : List Char) : Nat :=
  ds.foldl (fun acc c => 10 * acc + (c.toNat - 48)) 0

/-- The stream input `in >> n` of a `size_t`: skip white space, take a sign if
there is one, read the run of digits; the extraction fails without a digit or
with digits whose value a `size_t` does not hold.  After a minus sign the value
is negated in `size_t`, so that "-1" reads as `2 ^ 64 - 1`. -/
def readNat (s : List Char) : Option (Nat × List Char) :=
  let s1 := s.dropWhile isSpace
  let s2 := if s1.head? = some '-' ∨ s1.head? = some '+' then s1.tail else s1
  let ds := s2.takeWhile isDigit
  if ds = [] then none
  else if digitsToNat ds < SIZE then
    some (if s1.head? = some '-' then (if digitsToNat ds = 0 then 0 else SIZE - digitsToNat ds)
      else digitsToNat ds, s2.dropWhile isDigit)
  else none

/-- The stream input `in >> str` of a `std::string`: skip white space, read up
to the next white space; the extraction fails on an empty token.  The token
replaces the previous content of the string. -/
def readWord (s : List Char) : Option (List Char × List Char) :=
  let s1 := s.dropWhile isSpace
  let tok := s1.takeWhile (fun c => !isSpace c)
  if tok = [] then none else some (tok, s1.dropWhile (fun c => !isSpace c))

/-- The output operator of lines 144-153.  The serialisers of `AlphaCount` and
of the rank table are not in the source tree; they are the parameters `wAC` and
`wOcc`, and `O` is the type of the rank table. -/
def writeBWT {O : Type} (wAC : AlphaCount → List Char) (wOcc : O → List Char)
    (bwt : BWT) (occ : O) : List Char :=
  writeNat bwt.numStrings ++ ['\n'] ++ writeNat bwt.bwStr.length ++ ['\n'] ++ bwt.bwStr ++
    ['\n'] ++ wAC bwt.predCount ++ ['\n'] ++ wOcc occ

/-- The input operator of lines 157-167.  `m_bwStr.resize(n)` allocates and
fills `n` characters before the string is read; it throws `length_error` above
the `max_size()` of the string and `bad_alloc` when the memory is not to be
had.  `resizeOk n` tells whether `resize(n)` returns; when it throws the result
is `none`.  When it returns, the resized string is overwritten by the extraction
of the string that follows, so the declared `n` has no other effect.  `rAC` and
`rOcc` are the readers of `AlphaCount` and of the rank table. -/
def readBWT {O : Type} (resizeOk : Nat → Bool)
    (rAC : List Char → Option (AlphaCount × List Char))
    (rOcc : List Char → Option (O × List Char)) (s : List Char) :
    Option ((BWT × O) × List Char) := do
  let (numStrings, s1) ← readNat s
  let (n, s2) ← readNat s1
  if resizeOk n then
    let (bwStr, s3) ← readWord s2
    let (predCount, s4) ← rAC s3
    let (occ, s5) ← rOcc s4
    pure ((⟨predCount, bwStr, numStrings⟩, occ), s5)
  else none

/-- Modelled from the spec: the serialiser of `AlphaCount`, "one count per
alphabet symbol in alphabet order", here separated by blanks. -/
def writeAlphaCount (a : AlphaCount) : List Char :=
  writeNat a.nSent ++ [' '] ++ writeNat a.nA ++ [' '] ++ writeNat a.nC ++ [' '] ++
    writeNat a.nG ++ [' '] ++ writeNat a.nT

/-- Modelled from the spec: the reader of `AlphaCount`, five counts. -/
def readAlphaCount (s : List Char) : Option (AlphaCount × List Char) := do
  let (n0, s1) ← readNat s
  let (n1, s2) ← readNat s1
  let (n2, s3) ← readNat s2
  let (n3, s4) ← readNat s3
  let (n4, s5) ← readNat s4
  pure (⟨n0, n1, n2, n3, n4⟩, s5)
/-! ## The suffix array that the constructor expects -/

/-- The sequence with a given id; empty outside the table. -/
def seqOf (rt : ReadTable) (id : Nat) : List Char :=
  match rt[id]? with
  | some si => si.seq
  | none => []

/-- The suffix a suffix-array element stands for, with its final sentinel. -/
def suffixOf (rt : ReadTable) (e : SAElem) : List Char :=
  (seqOf rt e.id).drop e.pos ++ ['$']

/-- Lexicographic order of suffix strings; the character code of the sentinel
is smaller than that of every base. -/
def lexLe : List Char → List Char → Bool
  | [], _ => true
  | _ :: _, [] => false
  | a :: s, b :: t => decide (a < b) || (decide (a = b) && lexLe s t)

/-- Every offset `0..len` of every sequence, the ids counted from `id`. -/
def allElemsFrom : Nat → ReadTable → List SAElem
  | _, [] => []
  | id, si :: rest =>
    (List.range (si.seq.length + 1)).map (fun f => SAElem.mk id f) ++ allElemsFrom (id + 1) rest

/-- A valid generalized suffix array for a read table: one string count per
sequence, at least one sequence, sequences over the bases, every offset
`0..len` of every sequence listed once, the elements sorted by suffix string,
and a size that a `size_t` holds. -/
structure ValidSA (sa : SuffixArray) (rt : ReadTable) : Prop where
  numStrings_eq : sa.numStrings = rt.length
  numStrings_pos : 1 ≤ sa.numStrings
  bases : ∀ si ∈ rt, ∀ c ∈ si.seq, isBase c
  perm : sa.elems.Perm (allElemsFrom 0 rt)
  sorted : sa.elems.Pairwise (fun e1 e2 => lexLe (suffixOf rt e1) (suffixOf rt e2) = true)
  size_lt : sa.elems.length < SIZE

/-- Comparison of a suffix string `s` with a pattern `p`: `eq` when `p` is a
prefix of `s`, `lt` when `s` sorts before every string that starts with `p`,
`gt` when it sorts after. -/
def cmpPat : List Char → List Char → Ordering
  | [], _ => .eq
  | _ :: _, [] => .lt
  | a :: p, b :: s => if b < a then .lt else if a < b then .gt else cmpPat p s

/-- The rows of one sequence: for every offset the BWT symbol and the suffix
string, `prev` being the symbol before the sequence. -/
def rowsOf (prev : Char) : List Char → List (Char × List Char)
  | [] => [(prev, ['$'])]
  | a :: t => (prev, a :: t ++ ['$']) :: rowsOf a t

/-- The BWT symbol of a suffix-array element when the construction succeeds. -/
def bwSym (rt : ReadTable) (e : SAElem) : Char := (bwSymbol rt e).getD '$'

/-- The row of a suffix-array element: BWT symbol and suffix string. -/
def rowOf (rt : ReadTable) (e : SAElem) : Char × List Char := (bwSym rt e, suffixOf rt e)

/-- The suffix string sorts before every string that starts with `p`. -/
def lessP (p s : List Char) : Bool := decide (cmpPat p s = .lt)

/-- The suffix string does not sort after the strings that start with `p`. -/
def leP (p s : List Char) : Bool := decide (cmpPat p s ≠ .gt)

/-- The rows of a suffix array: BWT symbol and suffix string of every element. -/
def saRows (sa : SuffixArray) (rt : ReadTable) : List (Char × List Char) :=
  sa.elems.map (rowOf rt)

/-- Number of rows whose suffix sorts before the strings that start with `p`. -/
def lowerOf (rows : List (Char × List Char)) (p : List Char) : Nat :=
  rows.countP (fun r => lessP p r.2)

/-- Number of rows whose suffix sorts before or starts with `p`. -/
def upperOf (rows : List (Char × List Char)) (p : List Char) : Nat :=
  rows.countP (fun r => leP p r.2)

/-- Number of occurrences of `w` in the sequences of the table: the pairs of a
sequence and an offset at which `w` starts. -/
def occurrences (rt : ReadTable) (w : List Char) : Nat :=
  (allElemsFrom 0 rt).countP (fun e => w.isPrefixOf ((seqOf rt e.id).drop e.pos))

/-- The rows of the whole table, sequence after sequence. -/
def tableRows (rt : ReadTable) : List (Char × List Char) :=
  rt.flatMap (fun si => rowsOf '$' si.seq)

/-- What the search needs of the rows of an index: they are sorted, prefixing
the BWT symbol to a row gives another row, and the BWT symbols are symbols of
the alphabet. -/
structure RowsOK (rows : List (Char × List Char)) : Prop where
  sorted : rows.Pairwise (fun r1 r2 => lexLe r1.2 r2.2 = true)
  shift : ∀ (Q : List Char → Bool) (c : Char), c ≠ '$' →
    rows.countP (fun r => decide (r.1 = c) && Q r.2) =
      rows.countP (fun r => decide (r.2.headD '$' = c) && Q r.2.tail)
  heads : (rows.map Prod.fst).Perm (rows.map (fun r => r.2.headD '$'))
  symbols : ∀ r ∈ rows, isSymbol r.1

/-- An index together with the rows it was built from. -/
structure IndexOK (b : BWT) (rows : List (Char × List Char)) : Prop where
  rowsOK : RowsOK rows
  bwStr_eq : b.bwStr = rows.map Prod.fst
  pred_eq : b.predCount = buildPredCount (rows.map Prod.fst)
  size_lt : rows.length < SIZE
  sentinels : 1 ≤ (rows.map Prod.fst).count '$'

/-- The exact interval of a pattern as the pair `(lower, upper)`. -/
def intervalOf (rows : List (Char × List Char)) (p : List Char) : Nat × Nat :=
  (lowerOf rows p, upperOf rows p - 1)

/-- The interval `getPrefixHits` has reached when its loop ends. -/
def BWT.searchInterval (b : BWT) (w : List Char) : Nat × Nat :=
  b.extendLoop w (w.length - 1) (b.initInterval w).1 (b.initInterval w).2


/-- The sentinel rows of the suffix array come in the order of the full-sequence
rows: the `k`-th element and the `k`-th element with offset `0` belong to the
same sequence.  A suffix array sorted on the cycled strings has this order. -/
def SentinelAligned (sa : SuffixArray) : Prop :=
  (sa.elems.take sa.numStrings).map SAElem.id =
    (sa.elems.filter (fun e => decide (e.pos = 0))).map SAElem.id

instance (sa : SuffixArray) : Decidable (SentinelAligned sa) := by
  unfold SentinelAligned; infer_instance

/-! ## Concrete tables and suffix arrays -/

/-- The read table of the end-to-end scenario: "ACGT" and "CGTA". -/
def rtEx : ReadTable := [⟨['A', 'C', 'G', 'T']⟩, ⟨['C', 'G', 'T', 'A']⟩]

/-- The suffix array of `rtEx`, sorted by suffix string; its sentinel rows are
in the order of the full-sequence rows. -/
def saEx : SuffixArray :=
  ⟨[⟨0, 4⟩, ⟨1, 4⟩, ⟨1, 3⟩, ⟨0, 0⟩, ⟨0, 1⟩, ⟨1, 0⟩, ⟨0, 2⟩, ⟨1, 1⟩, ⟨0, 3⟩, ⟨1, 2⟩], 2⟩

/-- The suffix array of `rtSwap`, sorted by suffix string, equal suffixes by
sequence id. -/
def saSwap : SuffixArray :=
  ⟨[⟨0, 4⟩, ⟨1, 4⟩, ⟨0, 3⟩, ⟨1, 0⟩, ⟨1, 1⟩, ⟨0, 0⟩, ⟨1, 2⟩, ⟨0, 1⟩, ⟨1, 3⟩, ⟨0, 2⟩], 2⟩

/-- The table of the single sequence "T". -/
def rtT : ReadTable := [⟨['T']⟩]

/-- The suffix array of `rtT`: "$", "T$". -/
def saT : SuffixArray := ⟨[⟨0, 1⟩, ⟨0, 0⟩], 1⟩

/-- The table of the sequences "CAA" (id 0) and "CAAT" (id 1). -/
def rtCAAT : ReadTable := [⟨['C', 'A', 'A']⟩, ⟨['C', 'A', 'A', 'T']⟩]

/-- The suffix array of `rtCAAT`: "$" (of "CAA"), "$" (of "CAAT"), "A$", "AA$",
"AAT$", "AT$", "CAA$", "CAAT$", "T$"; the BWT string is "ATACCA$$A". -/
def saCAAT : SuffixArray :=
  ⟨[⟨0, 3⟩, ⟨1, 4⟩, ⟨0, 2⟩, ⟨0, 1⟩, ⟨1, 1⟩, ⟨1, 2⟩, ⟨0, 0⟩, ⟨1, 0⟩, ⟨1, 3⟩], 2⟩

/-- The table of the single sequence "AC". -/
def rtAC : ReadTable := [⟨['A', 'C']⟩]

/-- The suffix array of `rtAC`: "$", "AC$", "C$". -/
def saAC : SuffixArray := ⟨[⟨0, 2⟩, ⟨0, 0⟩, ⟨0, 1⟩], 1⟩

/-- The table of the single sequence of `n` symbols `T`. -/
def rtRep (n : Nat) : ReadTable := [⟨List.replicate n 'T'⟩]

/-- The suffix array of `rtRep n`: the suffixes "$", "T$", "TT$", ..., that is
the offsets `n`, `n - 1`, ..., `0`. -/
def saRep (n : Nat) : SuffixArray :=
  ⟨((List.range (n + 1)).map (fun f => SAElem.mk 0 f)).reverse, 1⟩

/-- The index of `saEx`, `rtEx`: BWT string "TAT$A$CCGG". -/
def bwtEx : BWT :=
  ⟨buildPredCount ['T', 'A', 'T', '$', 'A', '$', 'C', 'C', 'G', 'G'],
    ['T', 'A', 'T', '$', 'A', '$', 'C', 'C', 'G', 'G'], 2⟩

/-- The suffix array `saAC` with the offset of its first element, `2 = len`,
raised to `3 = len + 1`. -/
def saACpast : SuffixArray := ⟨[⟨0, 3⟩, ⟨0, 0⟩, ⟨0, 1⟩], 1⟩

/-- `LF` applied `n` times from row `i`; `none` when an application reads
outside the BWT string. -/
def iterLF (b : BWT) : Nat → Nat → Option Nat
  | 0, i => some i
  | n + 1, i => (b.LF i).bind (iterLF b n)

/-- The table of the single sequence of `n` symbols `A`. -/
def rtRepA (n : Nat) : ReadTable := [⟨List.replicate n 'A'⟩]

/-- A persisted record whose declared length, 5, is not the length of its BWT
string "C$A": "1\n5\nC$A\n0 1 2 3 3\n64". -/
def textBadLength : List Char :=
  ['1', '\n', '5', '\n', 'C', '$', 'A', '\n', '0', ' ', '1', ' ', '2', ' ', '3', ' ', '3',
    '\n', '6', '4']

/-! ## Lemmas -/

theorem countP_eq_zero_of_head_false {α : Type} (P : α → Bool) (a : α) (t : List α)
    (h : ∀ b ∈ t, P b = true → P a = true) (ha : P a = false) : t.countP P = 0 := by
  rw [List.countP_eq_zero]
  intro b hb hPb
  rw [h b hb hPb] at ha
  exact Bool.noConfusion ha

theorem take_countP_eq_filter {α : Type} (P : α → Bool) :
    ∀ l : List α, l.Pairwise (fun a b => P b = true → P a = true) →
      l.take (l.countP P) = l.filter P
  | [], _ => by simp
  | a :: t, hpw => by
    rw [List.pairwise_cons] at hpw
    cases ha : P a with
    | true =>
      simp [List.countP_cons, ha, List.filter_cons, take_countP_eq_filter P t hpw.2]
    | false =>
      have h0 := countP_eq_zero_of_head_false P a t hpw.1 ha
      have hf : t.filter P = [] := by
        rw [List.filter_eq_nil_iff]
        intro b hb hPb
        rw [hpw.1 b hb hPb] at ha
        exact Bool.noConfusion ha
      simp [List.countP_cons, ha, List.filter_cons, h0, hf]

theorem lt_countP_iff {α : Type} (P : α → Bool) :
    ∀ (l : List α), l.Pairwise (fun a b => P b = true → P a = true) →
      ∀ (i : Nat) (h : i < l.length), (i < l.countP P ↔ P l[i] = true)
  | [], _, i, h => by simp at h
  | a :: t, hpw, i, h => by
    rw [List.pairwise_cons] at hpw
    cases i with
    | zero =>
      cases ha : P a with
      | true => simp [List.countP_cons, ha]
      | false =>
        have h0 := countP_eq_zero_of_head_false P a t hpw.1 ha
        simp [List.countP_cons, ha, h0]
    | succ i =>
      have hi : i < t.length := by simpa using h
      have ih := lt_countP_iff P t hpw.2 i hi
      cases ha : P a with
      | true => simp [List.countP_cons, ha, ih]
      | false =>
        have h0 := countP_eq_zero_of_head_false P a t hpw.1 ha
        have : P t[i] = false := by
          cases hti : P t[i] with
          | false => rfl
          | true =>
            rw [hpw.1 _ (List.getElem_mem hi) hti] at ha
            exact Bool.noConfusion ha
        simp [List.countP_cons, ha, h0, this]

theorem rowsOf_eq_map (prev : Char) (q : List Char) :
    rowsOf prev q = (List.range (q.length + 1)).map
      (fun f => (if f = 0 then prev else q.getD (f - 1) '$', q.drop f ++ ['$'])) := by
  induction q generalizing prev with
  | nil => rfl
  | cons a t ih =>
    rw [rowsOf, ih a]
    conv_rhs => rw [List.length_cons, List.range_succ_eq_map]
    simp only [List.map_cons, List.map_map]
    refine congrArg₂ _ (by simp) ?_
    apply List.map_congr_left
    intro f _
    cases f with
    | zero => simp
    | succ f => simp

theorem bwSymbol_eq (rt : ReadTable) (si : SeqItem) (id f : Nat) (hid : rt[id]? = some si)
    (hf : f ≤ si.seq.length) :
    bwSymbol rt ⟨id, f⟩ = some (if f = 0 then '$' else si.seq.getD (f - 1) '$') := by
  simp only [bwSymbol, hid, Option.bind_eq_bind, Option.some_bind]
  by_cases h0 : f = 0
  · simp [h0]
  · have h1 : f - 1 < si.seq.length := by omega
    have h2 : f - 1 ≠ si.seq.length := by omega
    simp [h0, h2, List.getD_eq_getElem?_getD, List.getElem?_eq_getElem h1]

theorem rowOf_eq (rt : ReadTable) (si : SeqItem) (id f : Nat) (hid : rt[id]? = some si)
    (hf : f ≤ si.seq.length) :
    rowOf rt ⟨id, f⟩ = (if f = 0 then '$' else si.seq.getD (f - 1) '$', si.seq.drop f ++ ['$']) := by
  simp [rowOf, bwSym, bwSymbol_eq rt si id f hid hf, suffixOf, seqOf, hid]

theorem map_rowOf_allElemsFrom (pre rest : ReadTable) :
    (allElemsFrom pre.length rest).map (rowOf (pre ++ rest)) =
      rest.flatMap (fun si => rowsOf '$' si.seq) := by
  induction rest generalizing pre with
  | nil => simp [allElemsFrom]
  | cons si rest ih =>
    have h := ih (pre ++ [si])
    simp only [List.length_append, List.length_singleton, List.append_assoc,
      List.singleton_append] at h
    simp only [allElemsFrom, List.map_append, List.map_map, List.flatMap_cons, h]
    congr 1
    rw [rowsOf_eq_map]
    apply List.map_congr_left
    intro f hf
    have hf1 : f ≤ si.seq.length := by
      have := List.mem_range.mp hf
      omega
    exact rowOf_eq (pre ++ si :: rest) si pre.length f
      (by rw [List.getElem?_append_right (le_refl _)]; simp) hf1

theorem countP_add_of_forall {α : Type} (P P1 P2 : α → Bool) (l : List α)
    (h : ∀ x ∈ l, (if P x = true then 1 else 0) =
      (if P1 x = true then 1 else 0) + (if P2 x = true then 1 else 0)) :
    l.countP P = l.countP P1 + l.countP P2 := by
  induction l with
  | nil => simp
  | cons a t ih =>
    have ha := h a (List.mem_cons_self a t)
    have ht := ih (fun x hx => h x (List.mem_cons_of_mem a hx))
    simp only [List.countP_cons, ht]
    omega

theorem countP_rowsOf_shift (Q : List Char → Bool) (c : Char) (hc : c ≠ '$') (prev : Char)
    (q : List Char) :
    (rowsOf prev q).countP (fun r => decide (r.1 = c) && Q r.2) =
      (if (decide (prev = c) && Q (q ++ ['$'])) = true then 1 else 0) +
        (rowsOf prev q).countP (fun r => decide (r.2.headD '$' = c) && Q r.2.tail) := by
  induction q generalizing prev with
  | nil =>
    have : ¬ ('$' = c) := fun h => hc h.symm
    simp [rowsOf, List.countP_cons, this]
  | cons a t ih =>
    simp only [rowsOf, List.countP_cons, ih a, List.cons_append, List.headD_cons, List.tail_cons]
    omega

theorem count_rowsOf_fst (c prev : Char) (q : List Char) :
    ((rowsOf prev q).map Prod.fst).count c + (if '$' = c then 1 else 0) =
      (if prev = c then 1 else 0) + ((rowsOf prev q).map (fun r => r.2.headD '$')).count c := by
  induction q generalizing prev with
  | nil =>
    simp only [rowsOf, List.map_cons, List.map_nil, List.count_cons, List.count_nil,
      List.headD_cons, beq_iff_eq]
    omega
  | cons a t ih =>
    have h := ih a
    simp only [rowsOf, List.map_cons, List.count_cons, List.headD_cons, List.cons_append,
      beq_iff_eq] at h ⊢
    omega

theorem countP_tableRows_shift (Q : List Char → Bool) (c : Char) (hc : c ≠ '$')
    (rt : ReadTable) :
    (tableRows rt).countP (fun r => decide (r.1 = c) && Q r.2) =
      (tableRows rt).countP (fun r => decide (r.2.headD '$' = c) && Q r.2.tail) := by
  induction rt with
  | nil => simp [tableRows]
  | cons si rest ih =>
    have h := countP_rowsOf_shift Q c hc '$' si.seq
    have h0 : ¬ ('$' = c) := fun h => hc h.symm
    simp only [tableRows, List.flatMap_cons, List.countP_append] at ih ⊢
    rw [ih, h]
    simp [h0]

theorem count_tableRows_fst (c : Char) (rt : ReadTable) :
    ((tableRows rt).map Prod.fst).count c =
      ((tableRows rt).map (fun r => r.2.headD '$')).count c := by
  induction rt with
  | nil => simp [tableRows]
  | cons si rest ih =>
    have h := count_rowsOf_fst c '$' si.seq
    simp only [tableRows, List.flatMap_cons, List.map_append, List.count_append] at ih ⊢
    omega

theorem mapM_eq_some_map {α β : Type} (f : α → Option β) (g : α → β) (l : List α)
    (h : ∀ x ∈ l, f x = some (g x)) : l.mapM f = some (l.map g) := by
  induction l with
  | nil => rfl
  | cons a t ih =>
    have ha := h a (List.mem_cons_self a t)
    have ht := ih (fun x hx => h x (List.mem_cons_of_mem a hx))
    rw [List.mapM_cons, ha, ht]
    rfl

theorem AlphaCount.get_set (a : AlphaCount) (x c : Char) (v : Nat) (hc : isSymbol c) :
    (a.set x v).get c = if x = c then v else a.get c := by
  unfold AlphaCount.set
  by_cases h0 : x = '$'
  · subst h0
    rcases hc with h | h | h | h | h <;> subst h <;> simp [AlphaCount.get]
  by_cases h1 : x = 'A'
  · subst h1
    rcases hc with h | h | h | h | h <;> subst h <;> simp [AlphaCount.get]
  by_cases h2 : x = 'C'
  · subst h2
    rcases hc with h | h | h | h | h <;> subst h <;> simp [AlphaCount.get]
  by_cases h3 : x = 'G'
  · subst h3
    rcases hc with h | h | h | h | h <;> subst h <;> simp [AlphaCount.get]
  by_cases h4 : x = 'T'
  · subst h4
    rcases hc with h | h | h | h | h <;> subst h <;> simp [AlphaCount.get]
  rcases hc with h | h | h | h | h <;> subst h <;> simp [h0, h1, h2, h3, h4]

theorem AlphaCount.get_increment (a : AlphaCount) (x c : Char) (hc : isSymbol c) :
    (a.increment x).get c = a.get c + (if x = c then 1 else 0) := by
  rw [AlphaCount.increment, AlphaCount.get_set a x c _ hc]
  by_cases h : x = c
  · simp [h]
  · simp [h]

theorem AlphaCount.get_foldl_increment (l : List Char) (a : AlphaCount) (c : Char)
    (hc : isSymbol c) :
    (l.foldl AlphaCount.increment a).get c = a.get c + l.count c := by
  induction l generalizing a with
  | nil => simp
  | cons x t ih =>
    rw [List.foldl_cons, ih, AlphaCount.get_increment a x c hc, List.count_cons]
    simp only [beq_iff_eq]
    omega

theorem buildPredCount_get (bwStr : List Char) :
    (buildPredCount bwStr).get '$' = 0 ∧
    (buildPredCount bwStr).get 'A' = bwStr.count '$' ∧
    (buildPredCount bwStr).get 'C' = bwStr.count '$' + bwStr.count 'A' ∧
    (buildPredCount bwStr).get 'G' = bwStr.count '$' + bwStr.count 'A' + bwStr.count 'C' ∧
    (buildPredCount bwStr).get 'T' =
      bwStr.count '$' + bwStr.count 'A' + bwStr.count 'C' + bwStr.count 'G' := by
  have h0 := AlphaCount.get_foldl_increment bwStr AlphaCount.zero '$' (by decide)
  have h1 := AlphaCount.get_foldl_increment bwStr AlphaCount.zero 'A' (by decide)
  have h2 := AlphaCount.get_foldl_increment bwStr AlphaCount.zero 'C' (by decide)
  have h3 := AlphaCount.get_foldl_increment bwStr AlphaCount.zero 'G' (by decide)
  simp only [AlphaCount.zero, AlphaCount.get] at h0 h1 h2 h3
  simp at h0 h1 h2 h3
  simp [buildPredCount, AlphaCount.set, AlphaCount.get, AlphaCount.zero, h0, h1, h2, h3]

theorem countP_lt_symbols (l : List Char) (hl : ∀ c ∈ l, isSymbol c) :
    l.countP (fun x => decide (x < '$')) = 0 ∧
    l.countP (fun x => decide (x < 'A')) = l.count '$' ∧
    l.countP (fun x => decide (x < 'C')) = l.count '$' + l.count 'A' ∧
    l.countP (fun x => decide (x < 'G')) = l.count '$' + l.count 'A' + l.count 'C' ∧
    l.countP (fun x => decide (x < 'T')) = l.count '$' + l.count 'A' + l.count 'C' + l.count 'G' ∧
    l.length = l.count '$' + l.count 'A' + l.count 'C' + l.count 'G' + l.count 'T' := by
  induction l with
  | nil => simp
  | cons x t ih =>
    have hx := hl x (List.mem_cons_self x t)
    obtain ⟨i0, i1, i2, i3, i4, i5⟩ := ih (fun c hc => hl c (List.mem_cons_of_mem x hc))
    simp only [List.countP_cons, List.count_cons, List.length_cons, i0, i1, i2, i3, i4, i5]
    rcases hx with h | h | h | h | h <;> subst h <;> simp <;> omega

theorem base_gt_sentinel (c : Char) (hc : isBase c) : '$' < c := by
  rcases hc with h | h | h | h <;> subst h <;> decide

theorem cmpPat_cons (c : Char) (hc : '$' < c) (p s : List Char) :
    cmpPat (c :: p) s =
      if s.headD '$' < c then .lt else if c < s.headD '$' then .gt else cmpPat p s.tail := by
  cases s with
  | nil => simp [cmpPat, hc]
  | cons b t => simp [cmpPat]

theorem lessP_cons (c : Char) (hc : '$' < c) (p s : List Char) :
    lessP (c :: p) s = (decide (s.headD '$' < c) || (decide (s.headD '$' = c) && lessP p s.tail)) := by
  simp only [lessP, cmpPat_cons c hc]
  generalize s.headD '$' = b
  rcases lt_trichotomy b c with h | h | h
  · simp [h]
  · simp [h]
  · simp [h, not_lt_of_gt h, ne_of_gt h]

theorem leP_cons (c : Char) (hc : '$' < c) (p s : List Char) :
    leP (c :: p) s = (decide (s.headD '$' < c) || (decide (s.headD '$' = c) && leP p s.tail)) := by
  simp only [leP, cmpPat_cons c hc]
  generalize s.headD '$' = b
  rcases lt_trichotomy b c with h | h | h
  · simp [h]
  · simp [h]
  · simp [h, not_lt_of_gt h, ne_of_gt h]

theorem lessP_nil (s : List Char) : lessP [] s = false := by simp [lessP, cmpPat]

theorem leP_nil (s : List Char) : leP [] s = true := by simp [leP, cmpPat]

theorem cmpPat_mono (p : List Char) : ∀ s1 s2 : List Char, lexLe s1 s2 = true →
    (cmpPat p s2 = .lt → cmpPat p s1 = .lt) ∧ (cmpPat p s1 = .gt → cmpPat p s2 = .gt) := by
  induction p with
  | nil => intro s1 s2 _; simp [cmpPat]
  | cons a p ih =>
    intro s1 s2 h
    cases s1 with
    | nil => simp [cmpPat]
    | cons b1 t1 =>
      cases s2 with
      | nil => simp [lexLe] at h
      | cons b2 t2 =>
        simp only [lexLe, Bool.or_eq_true, decide_eq_true_eq, Bool.and_eq_true] at h
        simp only [cmpPat]
        rcases h with h | ⟨h, ht⟩
        · constructor
          · intro h2
            have hb2 : ¬ a < b2 := by
              intro h3
              rw [if_neg (not_lt_of_gt h3), if_pos h3] at h2
              exact Ordering.noConfusion h2
            rw [if_pos (lt_of_lt_of_le h (not_lt.mp hb2))]
          · intro h1
            have hb1 : ¬ b1 < a := by
              intro h3
              rw [if_pos h3] at h1
              exact Ordering.noConfusion h1
            have h4 : a < b2 := lt_of_le_of_lt (not_lt.mp hb1) h
            rw [if_neg (not_lt_of_gt h4), if_pos h4]
        · subst h
          have := ih t1 t2 ht
          constructor
          · intro h2
            split_ifs at h2 ⊢ with h3 h4
            · rfl
            · exact this.1 h2
          · intro h1
            split_ifs at h1 ⊢ with h3 h4
            · rfl
            · exact this.2 h1

theorem lessP_mono (p s1 s2 : List Char) (h : lexLe s1 s2 = true) (h2 : lessP p s2 = true) :
    lessP p s1 = true := by
  simp only [lessP, decide_eq_true_eq] at h2 ⊢
  exact (cmpPat_mono p s1 s2 h).1 h2

theorem leP_mono (p s1 s2 : List Char) (h : lexLe s1 s2 = true) (h2 : leP p s2 = true) :
    leP p s1 = true := by
  simp only [leP, decide_eq_true_eq] at h2 ⊢
  exact fun h1 => h2 ((cmpPat_mono p s1 s2 h).2 h1)

theorem cmpPat_eq_iff (p : List Char) : ∀ s : List Char, cmpPat p s = .eq ↔ p <+: s := by
  induction p with
  | nil => intro s; simp [cmpPat]
  | cons a p ih =>
    intro s
    cases s with
    | nil => simp [cmpPat]
    | cons b t =>
      simp only [cmpPat, List.cons_prefix_cons]
      rcases lt_trichotomy b a with h | h | h
      · simp [h, ne_of_gt h]
      · subst h; simp [ih t]
      · simp [h, not_lt_of_gt h, ne_of_gt h, (ne_of_gt h).symm]

theorem pred_eq_countP_lt (l : List Char) (hl : ∀ c ∈ l, isSymbol c) (c : Char)
    (hc : isSymbol c) :
    (buildPredCount l).get c = l.countP (fun x => decide (x < c)) := by
  obtain ⟨g0, g1, g2, g3, g4⟩ := buildPredCount_get l
  obtain ⟨k0, k1, k2, k3, k4, _⟩ := countP_lt_symbols l hl
  rcases hc with h | h | h | h | h <;> subst h
  · rw [g0, k0]
  · rw [g1, k1]
  · rw [g2, k2]
  · rw [g3, k3]
  · rw [g4, k4]

theorem count_take_countP (rows : List (Char × List Char)) (P : Char × List Char → Bool)
    (hP : rows.Pairwise (fun a b => P b = true → P a = true)) (c : Char) :
    ((rows.map Prod.fst).take (rows.countP P)).count c =
      rows.countP (fun r => decide (r.1 = c) && P r) := by
  rw [← List.map_take, take_countP_eq_filter P rows hP, List.count_eq_countP, List.countP_map,
    List.countP_filter]
  apply List.countP_congr
  intro r _
  simp

theorem count_step (rows : List (Char × List Char)) (ok : RowsOK rows) (c : Char)
    (hc : isBase c) (Q Q1 : List Char → Bool)
    (hQ1 : ∀ s, Q1 s = (decide (s.headD '$' < c) || (decide (s.headD '$' = c) && Q s.tail)))
    (hmono : ∀ s1 s2, lexLe s1 s2 = true → Q s2 = true → Q s1 = true) :
    rows.countP (fun r => Q1 r.2) =
      (buildPredCount (rows.map Prod.fst)).get c +
        ((rows.map Prod.fst).take (rows.countP (fun r => Q r.2))).count c := by
  have hne : c ≠ '$' := ne_of_gt (base_gt_sentinel c hc)
  have h1 : rows.countP (fun r => Q1 r.2) =
      rows.countP (fun r => decide (r.2.headD '$' < c)) +
        rows.countP (fun r => decide (r.2.headD '$' = c) && Q r.2.tail) := by
    apply countP_add_of_forall
    intro r _
    rw [hQ1]
    generalize r.2.headD '$' = b
    rcases lt_trichotomy b c with h | h | h
    · simp [h, ne_of_lt h]
    · simp [h]
    · simp [not_lt_of_gt h, ne_of_gt h]
  have h2 : rows.countP (fun r => decide (r.2.headD '$' < c)) =
      (buildPredCount (rows.map Prod.fst)).get c := by
    rw [pred_eq_countP_lt _ _ c (Or.inr hc), ok.heads.countP_eq, List.countP_map]
    · rfl
    · intro x hx
      obtain ⟨r, hr, rfl⟩ := List.mem_map.mp hx
      exact ok.symbols r hr
  have h3 := count_take_countP rows (fun r => Q r.2)
    (ok.sorted.imp (fun {a b} hab => hmono a.2 b.2 hab)) c
  rw [h1, h2, h3, ok.shift Q c hne]

theorem mem_allElemsFrom (pre rest : ReadTable) (e : SAElem)
    (he : e ∈ allElemsFrom pre.length rest) :
    ∃ si, (pre ++ rest)[e.id]? = some si ∧ e.pos ≤ si.seq.length := by
  induction rest generalizing pre with
  | nil => simp [allElemsFrom] at he
  | cons si rest ih =>
    simp only [allElemsFrom, List.mem_append, List.mem_map, List.mem_range] at he
    rcases he with ⟨f, hf, rfl⟩ | he
    · exact ⟨si, by rw [List.getElem?_append_right (le_refl _)]; simp, by simp; omega⟩
    · have h := ih (pre ++ [si]) (by simpa using he)
      simpa using h

theorem mem_rowsOf_fst (prev : Char) (q : List Char) (r : Char × List Char)
    (hr : r ∈ rowsOf prev q) : r.1 = prev ∨ r.1 ∈ q := by
  induction q generalizing prev with
  | nil =>
    simp only [rowsOf, List.mem_singleton] at hr
    left; rw [hr]
  | cons a t ih =>
    simp only [rowsOf, List.mem_cons] at hr
    rcases hr with hr | hr
    · left; rw [hr]
    · right
      rcases ih a hr with h | h
      · rw [h]; exact List.mem_cons_self a t
      · exact List.mem_cons_of_mem a h

theorem count_sentinel_rowsOf (prev : Char) (q : List Char) (hq : ∀ c ∈ q, isBase c) :
    ((rowsOf prev q).map Prod.fst).count '$' = if prev = '$' then 1 else 0 := by
  induction q generalizing prev with
  | nil => simp [rowsOf, List.count_cons]
  | cons a t ih =>
    have ha : a ≠ '$' := ne_of_gt (base_gt_sentinel a (hq a (List.mem_cons_self a t)))
    have h := ih a (fun c hc => hq c (List.mem_cons_of_mem a hc))
    simp only [rowsOf, List.map_cons, List.count_cons, h, beq_iff_eq, if_neg ha]
    simp

theorem count_sentinel_tableRows (rt : ReadTable) (hrt : ∀ si ∈ rt, ∀ c ∈ si.seq, isBase c) :
    ((tableRows rt).map Prod.fst).count '$' = rt.length := by
  induction rt with
  | nil => simp [tableRows]
  | cons si rest ih =>
    have h1 := count_sentinel_rowsOf '$' si.seq (hrt si (List.mem_cons_self si rest))
    have h2 := ih (fun s hs => hrt s (List.mem_cons_of_mem si hs))
    simp only [tableRows, List.flatMap_cons, List.map_append, List.count_append,
      List.length_cons] at h2 ⊢
    rw [h1, h2]
    simp
    omega

theorem saRows_perm_of_perm (sa : SuffixArray) (rt : ReadTable)
    (hperm : sa.elems.Perm (allElemsFrom 0 rt)) : (saRows sa rt).Perm (tableRows rt) := by
  have h := hperm.map (rowOf rt)
  have h2 := map_rowOf_allElemsFrom [] rt
  simp only [List.length_nil, List.nil_append] at h2
  rw [h2] at h
  exact h

theorem saRows_perm (sa : SuffixArray) (rt : ReadTable) (hv : ValidSA sa rt) :
    (saRows sa rt).Perm (tableRows rt) := saRows_perm_of_perm sa rt hv.perm

theorem validSA_rowsOK (sa : SuffixArray) (rt : ReadTable) (hv : ValidSA sa rt) :
    RowsOK (saRows sa rt) where
  sorted := by
    unfold saRows
    rw [List.pairwise_map]
    exact hv.sorted
  shift := by
    intro Q c hc
    rw [(saRows_perm sa rt hv).countP_eq, (saRows_perm sa rt hv).countP_eq]
    exact countP_tableRows_shift Q c hc rt
  heads := by
    rw [List.perm_iff_count]
    intro c
    rw [((saRows_perm sa rt hv).map Prod.fst).count_eq,
      ((saRows_perm sa rt hv).map (fun r => r.2.headD '$')).count_eq]
    exact count_tableRows_fst c rt
  symbols := by
    intro r hr
    have hr2 := (saRows_perm sa rt hv).mem_iff.mp hr
    simp only [tableRows, List.mem_flatMap] at hr2
    obtain ⟨si, hsi, hr3⟩ := hr2
    rcases mem_rowsOf_fst '$' si.seq r hr3 with h | h
    · exact Or.inl h
    · exact Or.inr (hv.bases si hsi _ h)

theorem construct_eq_of_perm (sa : SuffixArray) (rt : ReadTable)
    (hperm : sa.elems.Perm (allElemsFrom 0 rt)) :
    BWT.construct sa rt = some
      { predCount := buildPredCount ((saRows sa rt).map Prod.fst),
        bwStr := (saRows sa rt).map Prod.fst,
        numStrings := sa.numStrings } := by
  have h : sa.elems.mapM (bwSymbol rt) = some (sa.elems.map (bwSym rt)) := by
    apply mapM_eq_some_map
    intro e he
    obtain ⟨si, hsi, hpos⟩ := mem_allElemsFrom [] rt e (hperm.mem_iff.mp he)
    have := bwSymbol_eq rt si e.id e.pos (by simpa using hsi) hpos
    simp only [bwSym]
    rw [this]
    rfl
  have h2 : (saRows sa rt).map Prod.fst = sa.elems.map (bwSym rt) := by
    simp [saRows, rowOf, List.map_map, Function.comp_def]
  simp only [BWT.construct, h2, h]
  rfl

theorem construct_eq (sa : SuffixArray) (rt : ReadTable) (hv : ValidSA sa rt) :
    BWT.construct sa rt = some
      { predCount := buildPredCount ((saRows sa rt).map Prod.fst),
        bwStr := (saRows sa rt).map Prod.fst,
        numStrings := sa.numStrings } := construct_eq_of_perm sa rt hv.perm

theorem saRows_length (sa : SuffixArray) (rt : ReadTable) :
    (saRows sa rt).length = sa.elems.length := by simp [saRows]

theorem count_sentinel_saRows (sa : SuffixArray) (rt : ReadTable) (hv : ValidSA sa rt) :
    ((saRows sa rt).map Prod.fst).count '$' = sa.numStrings := by
  rw [((saRows_perm sa rt hv).map Prod.fst).count_eq, count_sentinel_tableRows rt hv.bases,
    hv.numStrings_eq]

theorem indexOK_of_valid (sa : SuffixArray) (rt : ReadTable) (hv : ValidSA sa rt) (b : BWT)
    (hb : BWT.construct sa rt = some b) : IndexOK b (saRows sa rt) := by
  rw [construct_eq sa rt hv] at hb
  cases hb
  exact
    { rowsOK := validSA_rowsOK sa rt hv
      bwStr_eq := rfl
      pred_eq := rfl
      size_lt := by rw [saRows_length]; exact hv.size_lt
      sentinels := by rw [count_sentinel_saRows sa rt hv]; exact hv.numStrings_pos }

theorem lowerOf_le_upperOf (rows : List (Char × List Char)) (p : List Char) :
    lowerOf rows p ≤ upperOf rows p := by
  apply List.countP_mono_left
  intro r _ h
  simp only [lessP, leP, decide_eq_true_eq] at h ⊢
  rw [h]
  exact fun h2 => Ordering.noConfusion h2

theorem upperOf_le_length (rows : List (Char × List Char)) (p : List Char) :
    upperOf rows p ≤ rows.length := List.countP_le_length _

theorem lowerOf_nil (rows : List (Char × List Char)) : lowerOf rows [] = 0 := by
  simp [lowerOf, lessP_nil]

theorem upperOf_nil (rows : List (Char × List Char)) : upperOf rows [] = rows.length := by
  simp [upperOf, leP_nil]

theorem lowerOf_cons (b : BWT) (rows : List (Char × List Char)) (ok : IndexOK b rows)
    (c : Char) (hc : isBase c) (p : List Char) :
    lowerOf rows (c :: p) = b.PRED c + (b.bwStr.take (lowerOf rows p)).count c := by
  rw [BWT.PRED, ok.pred_eq, ok.bwStr_eq]
  exact count_step rows ok.rowsOK c hc (lessP p) (lessP (c :: p))
    (lessP_cons c (base_gt_sentinel c hc) p) (lessP_mono p)

theorem upperOf_cons (b : BWT) (rows : List (Char × List Char)) (ok : IndexOK b rows)
    (c : Char) (hc : isBase c) (p : List Char) :
    upperOf rows (c :: p) = b.PRED c + (b.bwStr.take (upperOf rows p)).count c := by
  rw [BWT.PRED, ok.pred_eq, ok.bwStr_eq]
  exact count_step rows ok.rowsOK c hc (leP p) (leP (c :: p))
    (leP_cons c (base_gt_sentinel c hc) p) (leP_mono p)

theorem pred_base_pos (b : BWT) (rows : List (Char × List Char)) (ok : IndexOK b rows)
    (c : Char) (hc : isBase c) : 1 ≤ b.PRED c := by
  have h := ok.sentinels
  obtain ⟨_, g1, g2, g3, g4⟩ := buildPredCount_get (rows.map Prod.fst)
  rw [BWT.PRED, ok.pred_eq]
  rcases hc with h | h | h | h <;> subst h <;> omega

theorem lowerOf_cons_pos (b : BWT) (rows : List (Char × List Char)) (ok : IndexOK b rows)
    (c : Char) (hc : isBase c) (p : List Char) : 1 ≤ lowerOf rows (c :: p) := by
  rw [lowerOf_cons b rows ok c hc p]
  have := pred_base_pos b rows ok c hc
  omega

theorem sizeDec_pos (k : Nat) (hk : 1 ≤ k) : sizeDec k = k - 1 := by
  have : k ≠ 0 := by omega
  rw [sizeDec, if_neg this]

theorem occ_pred_eq_count (b : BWT) (c : Char) (k : Nat) (hk : 1 ≤ k) (hk2 : k < SIZE) :
    b.OCC c (k - 1) = (b.bwStr.take k).count c := by
  have h2 : k - 1 ≠ SIZE - 1 := by omega
  have h3 : k - 1 + 1 = k := by omega
  rw [BWT.OCC, Occurance.get, if_neg h2, h3]

theorem occ_eq_count (b : BWT) (c : Char) (k : Nat) (hk : 1 ≤ k) (hk2 : k < SIZE) :
    b.OCC c (sizeDec k) = (b.bwStr.take k).count c := by
  rw [sizeDec_pos k hk, occ_pred_eq_count b c k hk hk2]

theorem extend_step (b : BWT) (rows : List (Char × List Char)) (ok : IndexOK b rows)
    (c : Char) (hc : isBase c) (p : List Char) (hp : 1 ≤ lowerOf rows p) :
    (b.PRED c + b.OCC c (sizeDec (lowerOf rows p))) % SIZE = lowerOf rows (c :: p) ∧
    sizeDec ((b.PRED c + b.OCC c (upperOf rows p - 1)) % SIZE) = upperOf rows (c :: p) - 1 := by
  have hN := ok.size_lt
  have h1 := lowerOf_le_upperOf rows p
  have h2 := upperOf_le_length rows p
  have h3 := lowerOf_le_upperOf rows (c :: p)
  have h4 := upperOf_le_length rows (c :: p)
  have h5 := lowerOf_cons_pos b rows ok c hc p
  rw [occ_eq_count b c _ hp (by omega), occ_pred_eq_count b c _ (by omega) (by omega),
    ← lowerOf_cons b rows ok c hc p, ← upperOf_cons b rows ok c hc p]
  constructor
  · exact Nat.mod_eq_of_lt (by omega)
  · rw [Nat.mod_eq_of_lt (by omega), sizeDec_pos _ (by omega)]

theorem initInterval_eq (b : BWT) (rows : List (Char × List Char)) (ok : IndexOK b rows)
    (w : List Char) (hw : w ≠ []) (hbase : ∀ c ∈ w, isBase c) :
    b.initInterval w = intervalOf rows (w.drop (w.length - 1)) := by
  have hlen : 0 < w.length := List.length_pos.mpr hw
  have hj : w.length - 1 < w.length := by omega
  have hdrop : w.drop (w.length - 1) = [w[w.length - 1]] := by
    rw [List.drop_eq_getElem_cons hj]
    have : w.length - 1 + 1 = w.length := by omega
    rw [this, List.drop_length]
  have hcur : w.getD (w.length - 1) '$' = w[w.length - 1] := by
    rw [List.getD_eq_getElem?_getD, List.getElem?_eq_getElem hj]; rfl
  have hc : isBase w[w.length - 1] := hbase _ (List.getElem_mem hj)
  have hN := ok.size_lt
  have hpos : 1 ≤ rows.length := by
    have h1 := ok.sentinels
    have h2 := List.count_le_length '$' (rows.map Prod.fst)
    rw [List.length_map] at h2
    omega
  have hlenB : b.bwStr.length = rows.length := by rw [ok.bwStr_eq, List.length_map]
  have hlo := lowerOf_cons b rows ok _ hc []
  have hup := upperOf_cons b rows ok _ hc []
  rw [lowerOf_nil] at hlo
  rw [upperOf_nil] at hup
  simp only [List.take_zero, List.count_nil, Nat.add_zero] at hlo
  have h3 := lowerOf_le_upperOf rows [w[w.length - 1]]
  have h4 := upperOf_le_length rows [w[w.length - 1]]
  have h5 := lowerOf_cons_pos b rows ok _ hc []
  rw [hdrop]
  simp only [BWT.initInterval, intervalOf, hcur, hlenB]
  rw [occ_eq_count b _ _ hpos hN]
  have e1 : b.PRED w[w.length - 1] % SIZE = lowerOf rows [w[w.length - 1]] := by
    rw [hlo]; exact Nat.mod_eq_of_lt (by omega)
  rw [e1, hlo, ← hup, Nat.mod_eq_of_lt (by omega), sizeDec_pos _ (by omega)]

theorem getD_eq_getElem (w : List Char) (j : Nat) (hj : j < w.length) : w.getD j '$' = w[j] := by
  rw [List.getD_eq_getElem?_getD, List.getElem?_eq_getElem hj]; rfl

theorem lowerOf_drop_pos (b : BWT) (rows : List (Char × List Char)) (ok : IndexOK b rows)
    (w : List Char) (hbase : ∀ c ∈ w, isBase c) (j : Nat) (hj : j < w.length) :
    1 ≤ lowerOf rows (w.drop j) := by
  rw [List.drop_eq_getElem_cons hj]
  exact lowerOf_cons_pos b rows ok _ (hbase _ (List.getElem_mem hj)) _

theorem extendLoop_zero (b : BWT) (w : List Char) (lo hi : Nat) :
    b.extendLoop w 0 lo hi = (lo, hi) := rfl

theorem extendLoop_succ (b : BWT) (w : List Char) (j lo hi : Nat) :
    b.extendLoop w (j + 1) lo hi =
      b.extendLoop w j ((b.PRED (w.getD j '$') + b.OCC (w.getD j '$') (sizeDec lo)) % SIZE)
        (sizeDec ((b.PRED (w.getD j '$') + b.OCC (w.getD j '$') hi) % SIZE)) := rfl

theorem extendLoop_eq (b : BWT) (rows : List (Char × List Char)) (ok : IndexOK b rows)
    (w : List Char) (hbase : ∀ c ∈ w, isBase c) :
    ∀ j, j < w.length →
      b.extendLoop w j (lowerOf rows (w.drop j)) (upperOf rows (w.drop j) - 1) =
        intervalOf rows w := by
  intro j
  induction j with
  | zero => intro _; rw [extendLoop_zero, List.drop_zero]; rfl
  | succ j ih =>
    intro hj
    have hj0 : j < w.length := by omega
    have hc : isBase w[j] := hbase _ (List.getElem_mem hj0)
    obtain ⟨e1, e2⟩ := extend_step b rows ok w[j] hc (w.drop (j + 1))
      (lowerOf_drop_pos b rows ok w hbase (j + 1) hj)
    rw [← List.drop_eq_getElem_cons hj0] at e1 e2
    rw [extendLoop_succ, getD_eq_getElem w j hj0, e1, e2]
    exact ih hj0

theorem searchInterval_eq (b : BWT) (rows : List (Char × List Char)) (ok : IndexOK b rows)
    (w : List Char) (hw : w ≠ []) (hbase : ∀ c ∈ w, isBase c) :
    b.searchInterval w = intervalOf rows w := by
  have hlen : 0 < w.length := List.length_pos.mpr hw
  rw [BWT.searchInterval, initInterval_eq b rows ok w hw hbase]
  exact extendLoop_eq b rows ok w hbase (w.length - 1) (by omega)

theorem lessP_pairwise (rows : List (Char × List Char)) (ok : RowsOK rows) (p : List Char) :
    rows.Pairwise (fun a b => lessP p b.2 = true → lessP p a.2 = true) :=
  ok.sorted.imp (fun {a b} hab => lessP_mono p a.2 b.2 hab)

theorem leP_pairwise (rows : List (Char × List Char)) (ok : RowsOK rows) (p : List Char) :
    rows.Pairwise (fun a b => leP p b.2 = true → leP p a.2 = true) :=
  ok.sorted.imp (fun {a b} hab => leP_mono p a.2 b.2 hab)

theorem between_iff_match (p s : List Char) :
    (lessP p s = false ∧ leP p s = true) ↔ p <+: s := by
  rw [← cmpPat_eq_iff]
  simp only [lessP, leP, decide_eq_false_iff_not, decide_eq_true_eq]
  cases cmpPat p s <;> simp

theorem mem_interval_iff (rows : List (Char × List Char)) (ok : RowsOK rows) (p : List Char)
    (hup : 1 ≤ upperOf rows p) (i : Nat) (hi : i < rows.length) :
    ((intervalOf rows p).1 ≤ i ∧ i ≤ (intervalOf rows p).2) ↔ p <+: rows[i].2 := by
  have h1 := lt_countP_iff (fun r => lessP p r.2) rows (lessP_pairwise rows ok p) i hi
  have h2 := lt_countP_iff (fun r => leP p r.2) rows (leP_pairwise rows ok p) i hi
  rw [← between_iff_match, ← h2]
  have h3 : lessP p rows[i].2 = false ↔ ¬ (i < List.countP (fun r => lessP p r.2) rows) := by
    rw [h1]; simp
  rw [h3]
  simp only [intervalOf, lowerOf, upperOf] at hup ⊢
  omega

theorem isPrefixOf_append_sentinel (p : List Char) (hp : ∀ c ∈ p, isBase c) (x : List Char) :
    p <+: x ++ ['$'] ↔ p <+: x := by
  constructor
  · intro h
    induction p generalizing x with
    | nil => exact List.nil_prefix
    | cons a p ih =>
      cases x with
      | nil =>
        simp only [List.nil_append, List.cons_prefix_cons] at h
        have := base_gt_sentinel a (hp a (List.mem_cons_self a p))
        rw [h.1] at this
        exact absurd this (lt_irrefl _)
      | cons b x =>
        simp only [List.cons_append, List.cons_prefix_cons] at h ⊢
        exact ⟨h.1, ih (fun c hc => hp c (List.mem_cons_of_mem a hc)) x h.2⟩
  · intro h
    exact h.trans (List.prefix_append x ['$'])

theorem upper_sub_lower (rows : List (Char × List Char)) (p : List Char) :
    upperOf rows p - lowerOf rows p = rows.countP (fun r => p.isPrefixOf r.2) := by
  have h : upperOf rows p = lowerOf rows p + rows.countP (fun r => p.isPrefixOf r.2) := by
    apply countP_add_of_forall
    intro r _
    have := between_iff_match p r.2
    rw [← List.isPrefixOf_iff_prefix] at this
    cases h1 : lessP p r.2 <;> cases h2 : leP p r.2 <;> cases h3 : p.isPrefixOf r.2 <;>
      simp_all [lessP, leP]
  omega
theorem SIZE_pos : 0 < SIZE := by unfold SIZE; exact Nat.two_pow_pos 64

theorem pushHits_max (mkHit : Nat → Hit) :
    ∀ (fuel sa_idx : Nat) (hits : List Hit), sa_idx < SIZE →
      ∃ hs, pushHits mkHit (SIZE - 1) fuel sa_idx hits = .error hs := by
  intro fuel
  induction fuel with
  | zero => intro s hits _; exact ⟨hits, rfl⟩
  | succ fuel ih =>
    intro s hits hs
    have h1 : s ≤ SIZE - 1 := by omega
    rw [pushHits, if_pos h1]
    exact ih _ _ (Nat.mod_lt _ SIZE_pos)

theorem pushHits_enough (mkHit : Nat → Hit) (t_upper : Nat) (ht : t_upper + 1 < SIZE) :
    ∀ (fuel sa_idx : Nat) (hits : List Hit), t_upper + 1 - sa_idx < fuel →
      pushHits mkHit t_upper fuel sa_idx hits =
        .ok (hits ++ (List.range' sa_idx (t_upper + 1 - sa_idx)).map mkHit) := by
  intro fuel
  induction fuel with
  | zero => intro s hits h; omega
  | succ fuel ih =>
    intro s hits h
    rw [pushHits]
    by_cases hle : s ≤ t_upper
    · have hs1 : s + 1 < SIZE := by omega
      have e : t_upper + 1 - s = (t_upper + 1 - (s + 1)) + 1 := by omega
      rw [if_pos hle, Nat.mod_eq_of_lt hs1, ih (s + 1) _ (by omega), e, List.range'_succ]
      simp
    · have e : t_upper + 1 - s = 0 := by omega
      rw [if_neg hle, e]
      simp
theorem getPrefixHitsLoop_succ (b : BWT) (fuel readIdx : Nat) (w : List Char) (minOverlap : Int)
    (targetRev queryRev : Bool) (j r_lower r_upper : Nat) (hits : List Hit) :
    b.getPrefixHitsLoop fuel readIdx w minOverlap targetRev queryRev (j + 1) r_lower r_upper hits =
      if ((w.length : Int) - (j : Int)) ≥ minOverlap then
        match pushHits
            (fun sa_idx => ⟨readIdx, sa_idx, j, (w.length : Int) - (j : Int), targetRev, queryRev⟩)
            (sizeDec ((b.PRED '$' + b.OCC '$'
              (sizeDec ((b.PRED (w.getD j '$') + b.OCC (w.getD j '$') r_upper) % SIZE))) % SIZE))
            fuel
            ((b.PRED '$' + b.OCC '$' (sizeDec
              ((b.PRED (w.getD j '$') + b.OCC (w.getD j '$') (sizeDec r_lower)) % SIZE))) % SIZE)
            hits with
        | .ok hits1 => b.getPrefixHitsLoop fuel readIdx w minOverlap targetRev queryRev j
            ((b.PRED (w.getD j '$') + b.OCC (w.getD j '$') (sizeDec r_lower)) % SIZE)
            (sizeDec ((b.PRED (w.getD j '$') + b.OCC (w.getD j '$') r_upper) % SIZE)) hits1
        | .error hits1 => .error hits1
      else
        b.getPrefixHitsLoop fuel readIdx w minOverlap targetRev queryRev j
          ((b.PRED (w.getD j '$') + b.OCC (w.getD j '$') (sizeDec r_lower)) % SIZE)
          (sizeDec ((b.PRED (w.getD j '$') + b.OCC (w.getD j '$') r_upper) % SIZE)) hits := by
  rw [BWT.getPrefixHitsLoop]
theorem rowsOf_map_fst (prev : Char) (q : List Char) :
    (rowsOf prev q).map Prod.fst = prev :: q := by
  induction q generalizing prev with
  | nil => rfl
  | cons a t ih => simp [rowsOf, ih a]

theorem tableRows_length (rt : ReadTable) :
    (tableRows rt).length = (rt.map (fun si => si.seq.length)).sum + rt.length := by
  induction rt with
  | nil => rfl
  | cons si rest ih =>
    have h := congrArg List.length (rowsOf_map_fst '$' si.seq)
    simp only [List.length_map, List.length_cons] at h
    simp only [tableRows, List.flatMap_cons, List.length_append, List.map_cons, List.sum_cons,
      List.length_cons] at ih ⊢
    omega

theorem count_base_tableRows (rt : ReadTable) (c : Char) (hc : isBase c) :
    ((tableRows rt).map Prod.fst).count c = (rt.map (fun si => si.seq.count c)).sum := by
  have hne : ¬ ('$' = c) := fun h => (ne_of_gt (base_gt_sentinel c hc)) h.symm
  induction rt with
  | nil => rfl
  | cons si rest ih =>
    simp only [tableRows, List.flatMap_cons, List.map_append, List.count_append, List.map_cons,
      List.sum_cons, rowsOf_map_fst] at ih ⊢
    rw [ih, List.count_cons]
    simp [hne]

theorem mapM_some_length {α β : Type} (f : α → Option β) (l : List α) (l1 : List β)
    (h : l.mapM f = some l1) :
    l1.length = l.length ∧ ∀ (i : Nat) (hi : i < l.length), l1[i]? = f l[i] := by
  induction l generalizing l1 with
  | nil =>
    rw [List.mapM_nil] at h
    cases h
    exact ⟨rfl, fun i hi => absurd hi (Nat.not_lt_zero i)⟩
  | cons a t ih =>
    rw [List.mapM_cons] at h
    cases ha : f a with
    | none => rw [ha] at h; exact Option.noConfusion h
    | some x =>
      cases ht : t.mapM f with
      | none => rw [ha, ht] at h; exact Option.noConfusion h
      | some t1 =>
        rw [ha, ht] at h
        cases h
        obtain ⟨h1, h2⟩ := ih t1 ht
        refine ⟨by simp [h1], ?_⟩
        intro i hi
        cases i with
        | zero => simp [ha]
        | succ i => simpa using h2 i (by simpa using hi)

theorem construct_some (sa : SuffixArray) (rt : ReadTable) (b : BWT)
    (hb : BWT.construct sa rt = some b) :
    sa.elems.mapM (bwSymbol rt) = some b.bwStr ∧ b.predCount = buildPredCount b.bwStr ∧
      b.numStrings = sa.numStrings := by
  unfold BWT.construct at hb
  cases hm : sa.elems.mapM (bwSymbol rt) with
  | none => rw [hm] at hb; exact Option.noConfusion hb
  | some bw =>
    rw [hm] at hb
    cases hb
    exact ⟨rfl, rfl, rfl⟩
theorem validSA_saT : ValidSA saT rtT where
  numStrings_eq := by decide
  numStrings_pos := by decide
  bases := by decide
  perm := by decide
  sorted := by decide
  size_lt := by decide

theorem validSA_saCAAT : ValidSA saCAAT rtCAAT where
  numStrings_eq := by decide
  numStrings_pos := by decide
  bases := by decide
  perm := by decide
  sorted := by decide
  size_lt := by decide

theorem validSA_saAC : ValidSA saAC rtAC where
  numStrings_eq := by decide
  numStrings_pos := by decide
  bases := by decide
  perm := by decide
  sorted := by decide
  size_lt := by decide

theorem not_aligned_saSwap : ¬ SentinelAligned saSwap := by decide
theorem pushHits_shape (mkHit : Nat → Hit) (t_upper : Nat) :
    ∀ (fuel sa_idx : Nat) (hits : List Hit), ∃ new,
      (pushHits mkHit t_upper fuel sa_idx hits = .ok (hits ++ new) ∨
        pushHits mkHit t_upper fuel sa_idx hits = .error (hits ++ new)) ∧
      ∀ h ∈ new, ∃ s, h = mkHit s := by
  intro fuel
  induction fuel with
  | zero => intro s hits; exact ⟨[], Or.inr (by simp [pushHits]), by simp⟩
  | succ fuel ih =>
    intro s hits
    rw [pushHits]
    by_cases hle : s ≤ t_upper
    · rw [if_pos hle]
      obtain ⟨new, h1, h2⟩ := ih ((s + 1) % SIZE) (hits ++ [mkHit s])
      refine ⟨mkHit s :: new, by simpa using h1, ?_⟩
      intro h hh
      rcases List.mem_cons.mp hh with rfl | hh
      · exact ⟨s, rfl⟩
      · exact h2 h hh
    · rw [if_neg hle]
      exact ⟨[], Or.inl (by simp), by simp⟩

theorem getPrefixHitsLoop_diverges (b : BWT) (fuel readIdx : Nat) (w : List Char)
    (minOverlap : Int) (targetRev queryRev : Bool) (j r_lower r_upper : Nat) (hits : List Hit)
    (hov : (w.length : Int) - (j : Int) ≥ minOverlap)
    (hwrap : sizeDec ((b.PRED '$' + b.OCC '$'
      (sizeDec ((b.PRED (w.getD j '$') + b.OCC (w.getD j '$') r_upper) % SIZE))) % SIZE) =
        SIZE - 1) :
    ∃ new, b.getPrefixHitsLoop fuel readIdx w minOverlap targetRev queryRev (j + 1)
        r_lower r_upper hits = .error (hits ++ new) ∧ ∀ h ∈ new, h.qstart = (j : Int) := by
  rw [getPrefixHitsLoop_succ, if_pos hov, hwrap]
  obtain ⟨new, h1, h2⟩ := pushHits_shape
    (fun sa_idx => (⟨readIdx, sa_idx, j, (w.length : Int) - (j : Int), targetRev, queryRev⟩ : Hit))
    (SIZE - 1) fuel
    ((b.PRED '$' + b.OCC '$' (sizeDec
      ((b.PRED (w.getD j '$') + b.OCC (w.getD j '$') (sizeDec r_lower)) % SIZE))) % SIZE) hits
  obtain ⟨hs, he⟩ := pushHits_max
    (fun sa_idx => (⟨readIdx, sa_idx, j, (w.length : Int) - (j : Int), targetRev, queryRev⟩ : Hit))
    fuel
    ((b.PRED '$' + b.OCC '$' (sizeDec
      ((b.PRED (w.getD j '$') + b.OCC (w.getD j '$') (sizeDec r_lower)) % SIZE))) % SIZE) hits
    (Nat.mod_lt _ SIZE_pos)
  rcases h1 with h1 | h1
  · rw [h1] at he
    exact Except.noConfusion he
  · refine ⟨new, by rw [h1], ?_⟩
    intro h hh
    obtain ⟨s, rfl⟩ := h2 h hh
    rfl
theorem lexLe_replicate (a b : Nat) (h : a ≤ b) :
    lexLe (List.replicate a 'T' ++ ['$']) (List.replicate b 'T' ++ ['$']) = true := by
  induction a generalizing b with
  | zero =>
    cases b with
    | zero => decide
    | succ b => simp [lexLe, List.replicate_succ]
  | succ a ih =>
    cases b with
    | zero => omega
    | succ b =>
      have h2 := ih b (by omega)
      rw [List.replicate_succ, List.replicate_succ, List.cons_append, List.cons_append, lexLe,
        h2]
      simp

theorem suffixOf_rtRep (n f : Nat) :
    suffixOf (rtRep n) ⟨0, f⟩ = List.replicate (n - f) 'T' ++ ['$'] := by
  simp [suffixOf, seqOf, rtRep, List.drop_replicate]

theorem validSA_saRep (n : Nat) (hn : n + 1 < SIZE) : ValidSA (saRep n) (rtRep n) where
  numStrings_eq := rfl
  numStrings_pos := Nat.le_refl 1
  bases := by
    intro si hsi c hc
    simp only [rtRep, List.mem_singleton] at hsi
    subst hsi
    rw [List.eq_of_mem_replicate hc]
    decide
  perm := by
    simp only [saRep, rtRep, allElemsFrom, List.length_replicate, List.append_nil]
    exact List.reverse_perm _
  sorted := by
    simp only [saRep]
    rw [List.pairwise_reverse, List.pairwise_map]
    refine (List.pairwise_lt_range (n + 1)).imp ?_
    intro f1 f2 h12
    rw [suffixOf_rtRep, suffixOf_rtRep]
    exact lexLe_replicate _ _ (by omega)
  size_lt := by
    simp only [saRep, List.length_reverse, List.length_map, List.length_range]
    exact hn

theorem saRows_saRep (n : Nat) :
    (saRows (saRep n) (rtRep n)).map Prod.fst = List.replicate n 'T' ++ ['$'] := by
  have h := map_rowOf_allElemsFrom [] (rtRep n)
  simp only [rtRep, allElemsFrom, List.length_nil, List.nil_append, List.length_replicate,
    List.append_nil, List.flatMap_cons, List.flatMap_nil] at h
  simp only [saRows, saRep, rtRep, List.map_reverse, h, rowsOf_map_fst, List.reverse_cons,
    List.reverse_replicate]

theorem construct_saRep (n : Nat) (hn : n + 1 < SIZE) :
    BWT.construct (saRep n) (rtRep n) = some
      ⟨buildPredCount (List.replicate n 'T' ++ ['$']), List.replicate n 'T' ++ ['$'], 1⟩ := by
  rw [construct_eq _ _ (validSA_saRep n hn), saRows_saRep]
  rfl

theorem pred_T_saRep (n : Nat) :
    (buildPredCount (List.replicate n 'T' ++ ['$'])).get 'T' = 1 := by
  obtain ⟨_, _, _, _, g4⟩ := buildPredCount_get (List.replicate n 'T' ++ ['$'])
  rw [g4]
  simp [List.count_append, List.count_replicate, List.count_cons]

theorem occ_T_saRep (n : Nat) (hn : n + 1 < SIZE) :
    Occurance.get (List.replicate n 'T' ++ ['$']) 'T' (sizeDec (n + 1)) = n := by
  have h1 : sizeDec (n + 1) = n := by rw [sizeDec_pos _ (by omega)]; rfl
  have h2 : n ≠ SIZE - 1 := by omega
  rw [h1, Occurance.get, if_neg h2, List.take_of_length_le (by simp)]
  simp [List.count_append, List.count_replicate, List.count_cons]

theorem searchInterval_saRep (n : Nat) (hn : n + 1 < SIZE) :
    (⟨buildPredCount (List.replicate n 'T' ++ ['$']), List.replicate n 'T' ++ ['$'], 1⟩ :
      BWT).searchInterval ['T'] = (1, n) := by
  have h3 : (List.replicate n 'T' ++ ['$']).length = n + 1 := by simp
  have h4 : (1 + n) % SIZE = 1 + n := Nat.mod_eq_of_lt (by omega)
  have h5 : (1 : Nat) % SIZE = 1 := Nat.mod_eq_of_lt (by omega)
  have h6 : sizeDec (1 + n) = n := by rw [sizeDec_pos _ (by omega)]; omega
  simp only [BWT.searchInterval, BWT.initInterval, BWT.extendLoop, BWT.PRED, BWT.OCC,
    List.length_singleton, Nat.sub_self, List.getD_cons_zero, pred_T_saRep, h3,
    occ_T_saRep n hn, h4, h5, h6]

theorem backwardSearchBits_saRep (n : Nat) (hn : n + 1 < SIZE) :
    (⟨buildPredCount (List.replicate n 'T' ++ ['$']), List.replicate n 'T' ++ ['$'], 1⟩ :
      BWT).backwardSearchBits ['T'] =
      (intOfSize 1, intOfSize (sizeDec ((sizeOfInt (intOfSize 1) + n) % SIZE))) := by
  have h3 : (List.replicate n 'T' ++ ['$']).length = n + 1 := by simp
  simp only [BWT.backwardSearchBits, BWT.backwardSearchLoop, BWT.PRED, BWT.OCC,
    List.length_singleton, Nat.sub_self, List.getD_cons_zero, pred_T_saRep, h3,
    occ_T_saRep n hn]
theorem occurrences_eq_countP (sa : SuffixArray) (rt : ReadTable) (hv : ValidSA sa rt)
    (w : List Char) (hbase : ∀ c ∈ w, isBase c) :
    (saRows sa rt).countP (fun r => w.isPrefixOf r.2) = occurrences rt w := by
  unfold saRows occurrences
  rw [List.countP_map, hv.perm.countP_eq]
  apply List.countP_congr
  intro e _
  simp only [Function.comp_apply, rowOf, suffixOf, List.isPrefixOf_iff_prefix]
  exact isPrefixOf_append_sentinel w hbase _

/-- The loop of `getPrefixHits` computes the exact interval: on a valid index
and a non-empty pattern over the bases, the rows `lower..upper` it ends with are
the rows whose suffix starts with the pattern, and `upper - lower + 1` is the
number of occurrences of the pattern in the sequences. -/
theorem searchInterval_correct (sa : SuffixArray) (rt : ReadTable) (b : BWT)
    (hv : ValidSA sa rt) (hb : BWT.construct sa rt = some b) (w : List Char) (hw : w ≠ [])
    (hbase : ∀ c ∈ w, isBase c) :
    (∀ (i : Nat) (hi : i < sa.elems.length),
      ((b.searchInterval w).1 ≤ i ∧ i ≤ (b.searchInterval w).2) ↔
        w <+: suffixOf rt sa.elems[i]) ∧
    (b.searchInterval w).2 + 1 - (b.searchInterval w).1 = occurrences rt w := by
  have ok := indexOK_of_valid sa rt hv b hb
  have hlen : 0 < w.length := List.length_pos.mpr hw
  have hlo := lowerOf_drop_pos b _ ok w hbase 0 hlen
  rw [List.drop_zero] at hlo
  have hle := lowerOf_le_upperOf (saRows sa rt) w
  rw [searchInterval_eq b _ ok w hw hbase]
  constructor
  · intro i hi
    have hi2 : i < (saRows sa rt).length := by rw [saRows_length]; exact hi
    have h := mem_interval_iff _ ok.rowsOK w (by omega) i hi2
    have e : (saRows sa rt)[i].2 = suffixOf rt sa.elems[i] := by
      simp [saRows, rowOf]
    rw [e] at h
    exact h
  · have h := upper_sub_lower (saRows sa rt) w
    rw [occurrences_eq_countP sa rt hv w hbase] at h
    simp only [intervalOf]
    omega
theorem intOfSize_small (x : Nat) (h : x < 2 ^ 31) : intOfSize x = x := by
  unfold intOfSize
  exact Nat.mod_eq_of_lt (by omega)

theorem sizeOfInt_small (p : Nat) (h : p < 2 ^ 31) : sizeOfInt p = p := by
  unfold sizeOfInt
  rw [if_pos h]

theorem intDec_pos (p : Nat) (h : 1 ≤ p) : intDec p = p - 1 := by
  have : p ≠ 0 := by omega
  rw [intDec, if_neg this]

theorem intVal_small (p : Nat) (h : p < 2 ^ 31) : intVal p = (p : Int) := by
  rw [intVal, if_pos h]

theorem backwardSearchLoop_succ (b : BWT) (w : List Char) (j r_lower r_upper : Nat) :
    b.backwardSearchLoop w (j + 1) r_lower r_upper =
      b.backwardSearchLoop w j
        (intOfSize ((b.PRED (w.getD j '$') +
          b.OCC (w.getD j '$') (sizeOfInt (intDec r_lower))) % SIZE))
        (intOfSize (sizeDec ((b.PRED (w.getD j '$') +
          b.OCC (w.getD j '$') (sizeOfInt r_upper)) % SIZE))) := by
  rw [BWT.backwardSearchLoop]

theorem backwardSearchLoop_eq (b : BWT) (rows : List (Char × List Char)) (ok : IndexOK b rows)
    (hsmall : rows.length < 2 ^ 31) (w : List Char) (hbase : ∀ c ∈ w, isBase c) :
    ∀ j, j < w.length →
      b.backwardSearchLoop w j (lowerOf rows (w.drop j)) (upperOf rows (w.drop j) - 1) =
        intervalOf rows w := by
  intro j
  induction j with
  | zero => intro _; rw [BWT.backwardSearchLoop, List.drop_zero]; rfl
  | succ j ih =>
    intro hj
    have hj0 : j < w.length := by omega
    have hc : isBase w[j] := hbase _ (List.getElem_mem hj0)
    have hp := lowerOf_drop_pos b rows ok w hbase (j + 1) hj
    obtain ⟨e1, e2⟩ := extend_step b rows ok w[j] hc (w.drop (j + 1)) hp
    rw [← List.drop_eq_getElem_cons hj0] at e1 e2
    have h1 := lowerOf_le_upperOf rows (w.drop (j + 1))
    have h2 := upperOf_le_length rows (w.drop (j + 1))
    have h3 := lowerOf_le_upperOf rows (w.drop j)
    have h4 := upperOf_le_length rows (w.drop j)
    rw [sizeDec_pos _ hp] at e1
    rw [backwardSearchLoop_succ, getD_eq_getElem w j hj0, intDec_pos _ hp,
      sizeOfInt_small _ (by omega), sizeOfInt_small _ (by omega), e1, e2,
      intOfSize_small _ (by omega), intOfSize_small _ (by omega)]
    exact ih hj0

theorem init_facts (b : BWT) (rows : List (Char × List Char)) (ok : IndexOK b rows)
    (w : List Char) (hw : w ≠ []) (hbase : ∀ c ∈ w, isBase c) :
    b.PRED (w.getD (w.length - 1) '$') = lowerOf rows (w.drop (w.length - 1)) ∧
    b.PRED (w.getD (w.length - 1) '$') +
      b.OCC (w.getD (w.length - 1) '$') (sizeDec b.bwStr.length) =
        upperOf rows (w.drop (w.length - 1)) := by
  have hlen : 0 < w.length := List.length_pos.mpr hw
  have hj : w.length - 1 < w.length := by omega
  have hdrop : w.drop (w.length - 1) = [w[w.length - 1]] := by
    rw [List.drop_eq_getElem_cons hj]
    have : w.length - 1 + 1 = w.length := by omega
    rw [this, List.drop_length]
  have hc : isBase w[w.length - 1] := hbase _ (List.getElem_mem hj)
  have hN := ok.size_lt
  have hpos : 1 ≤ rows.length := by
    have h1 := ok.sentinels
    have h2 := List.count_le_length '$' (rows.map Prod.fst)
    rw [List.length_map] at h2
    omega
  have hlenB : b.bwStr.length = rows.length := by rw [ok.bwStr_eq, List.length_map]
  have hlo := lowerOf_cons b rows ok _ hc []
  have hup := upperOf_cons b rows ok _ hc []
  rw [lowerOf_nil] at hlo
  rw [upperOf_nil] at hup
  simp only [List.take_zero, List.count_nil, Nat.add_zero] at hlo
  rw [hdrop, getD_eq_getElem w _ hj, hlenB, occ_eq_count b _ _ hpos hN, hlo, hup]
  exact ⟨rfl, rfl⟩

/-- Below `2 ^ 31` rows the `int` bounds of `backwardSearch` are the bounds of
the `size_t` loop. -/
theorem backwardSearch_of_small (sa : SuffixArray) (rt : ReadTable) (b : BWT)
    (hv : ValidSA sa rt) (hb : BWT.construct sa rt = some b) (w : List Char) (hw : w ≠ [])
    (hbase : ∀ c ∈ w, isBase c) (hsmall : sa.elems.length < 2 ^ 31) :
    b.backwardSearch w = (((b.searchInterval w).1 : Int), ((b.searchInterval w).2 : Int)) := by
  have ok := indexOK_of_valid sa rt hv b hb
  have hsm : (saRows sa rt).length < 2 ^ 31 := by rw [saRows_length]; exact hsmall
  have hlen : 0 < w.length := List.length_pos.mpr hw
  have hj : w.length - 1 < w.length := by omega
  obtain ⟨f1, f2⟩ := init_facts b _ ok w hw hbase
  have h1 := lowerOf_le_upperOf (saRows sa rt) (w.drop (w.length - 1))
  have h2 := upperOf_le_length (saRows sa rt) (w.drop (w.length - 1))
  have h3 := lowerOf_le_upperOf (saRows sa rt) w
  have h4 := upperOf_le_length (saRows sa rt) w
  have h5 := lowerOf_drop_pos b _ ok w hbase (w.length - 1) hj
  have hN := ok.size_lt
  have hP : b.PRED (w.getD (w.length - 1) '$') < 2 ^ 31 := by omega
  have hbits : b.backwardSearchBits w = intervalOf (saRows sa rt) w := by
    simp only [BWT.backwardSearchBits]
    rw [intOfSize_small _ hP, sizeOfInt_small _ hP, f2, Nat.mod_eq_of_lt (by omega),
      sizeDec_pos _ (by omega), intOfSize_small _ (by omega), f1]
    exact backwardSearchLoop_eq b _ ok hsm w hbase (w.length - 1) hj
  rw [BWT.backwardSearch, hbits, searchInterval_eq b _ ok w hw hbase]
  simp only [intervalOf]
  rw [intVal_small _ (by omega), intVal_small _ (by omega)]
theorem lexLe_replicateA (a b : Nat) (h : a ≤ b) :
    lexLe (List.replicate a 'A' ++ ['$']) (List.replicate b 'A' ++ ['$']) = true := by
  induction a generalizing b with
  | zero =>
    cases b with
    | zero => decide
    | succ b => simp [lexLe, List.replicate_succ]
  | succ a ih =>
    cases b with
    | zero => omega
    | succ b =>
      have h2 := ih b (by omega)
      rw [List.replicate_succ, List.replicate_succ, List.cons_append, List.cons_append, lexLe,
        h2]
      simp

theorem suffixOf_rtRepA (n f : Nat) :
    suffixOf (rtRepA n) ⟨0, f⟩ = List.replicate (n - f) 'A' ++ ['$'] := by
  simp [suffixOf, seqOf, rtRepA, List.drop_replicate]

theorem validSA_saRepA (n : Nat) (hn : n + 1 < SIZE) : ValidSA (saRep n) (rtRepA n) where
  numStrings_eq := rfl
  numStrings_pos := Nat.le_refl 1
  bases := by
    intro si hsi c hc
    simp only [rtRepA, List.mem_singleton] at hsi
    subst hsi
    rw [List.eq_of_mem_replicate hc]
    decide
  perm := by
    simp only [saRep, rtRepA, allElemsFrom, List.length_replicate, List.append_nil]
    exact List.reverse_perm _
  sorted := by
    simp only [saRep]
    rw [List.pairwise_reverse, List.pairwise_map]
    refine (List.pairwise_lt_range (n + 1)).imp ?_
    intro f1 f2 h12
    rw [suffixOf_rtRepA, suffixOf_rtRepA]
    exact lexLe_replicateA _ _ (by omega)
  size_lt := by
    simp only [saRep, List.length_reverse, List.length_map, List.length_range]
    exact hn

theorem saRows_saRepA (n : Nat) :
    (saRows (saRep n) (rtRepA n)).map Prod.fst = List.replicate n 'A' ++ ['$'] := by
  have h := map_rowOf_allElemsFrom [] (rtRepA n)
  simp only [rtRepA, allElemsFrom, List.length_nil, List.nil_append, List.length_replicate,
    List.append_nil, List.flatMap_cons, List.flatMap_nil] at h
  simp only [saRows, saRep, rtRepA, List.map_reverse, h, rowsOf_map_fst, List.reverse_cons,
    List.reverse_replicate]

theorem construct_saRepA (n : Nat) (hn : n + 1 < SIZE) :
    BWT.construct (saRep n) (rtRepA n) = some
      ⟨buildPredCount (List.replicate n 'A' ++ ['$']), List.replicate n 'A' ++ ['$'], 1⟩ := by
  rw [construct_eq _ _ (validSA_saRepA n hn), saRows_saRepA]
  rfl

theorem pred_C_saRepA (n : Nat) :
    (buildPredCount (List.replicate n 'A' ++ ['$'])).get 'C' = n + 1 := by
  obtain ⟨_, _, g2, _, _⟩ := buildPredCount_get (List.replicate n 'A' ++ ['$'])
  rw [g2]
  simp [List.count_append, List.count_replicate, List.count_cons]
  omega

theorem occ_C_saRepA (n idx : Nat) :
    Occurance.get (List.replicate n 'A' ++ ['$']) 'C' idx = 0 := by
  unfold Occurance.get
  split_ifs
  · rfl
  · rw [List.count_eq_zero]
    intro hmem
    have h2 := List.mem_of_mem_take hmem
    simp at h2

theorem searchInterval_saRepA (n : Nat) (hn : n + 1 < SIZE) :
    (⟨buildPredCount (List.replicate n 'A' ++ ['$']), List.replicate n 'A' ++ ['$'], 1⟩ :
      BWT).searchInterval ['C'] = (n + 1, n) := by
  have h4 : (n + 1) % SIZE = n + 1 := Nat.mod_eq_of_lt hn
  have h6 : sizeDec (n + 1) = n := by rw [sizeDec_pos _ (by omega)]; omega
  simp only [BWT.searchInterval, BWT.initInterval, BWT.extendLoop, BWT.PRED, BWT.OCC,
    List.length_singleton, Nat.sub_self, List.getD_cons_zero, pred_C_saRepA, occ_C_saRepA,
    Nat.add_zero, h4, h6]

theorem backwardSearchBits_saRepA (n : Nat) :
    (⟨buildPredCount (List.replicate n 'A' ++ ['$']), List.replicate n 'A' ++ ['$'], 1⟩ :
      BWT).backwardSearchBits ['C'] =
      (intOfSize (n + 1),
        intOfSize (sizeDec ((sizeOfInt (intOfSize (n + 1)) + 0) % SIZE))) := by
  simp only [BWT.backwardSearchBits, BWT.backwardSearchLoop, BWT.PRED, BWT.OCC,
    List.length_singleton, Nat.sub_self, List.getD_cons_zero, pred_C_saRepA, occ_C_saRepA]

theorem backwardSearchLoop_saRepA (n lo hi : Nat) :
    (⟨buildPredCount (List.replicate n 'A' ++ ['$']), List.replicate n 'A' ++ ['$'], 1⟩ :
      BWT).backwardSearchLoop ['C'] 1 lo hi =
      (intOfSize ((n + 1 + 0) % SIZE), intOfSize (sizeDec ((n + 1 + 0) % SIZE))) := by
  simp only [BWT.backwardSearchLoop, BWT.PRED, BWT.OCC, List.getD_cons_zero, pred_C_saRepA,
    occ_C_saRepA]
/-- The loop of `getPrefixHits` ends with an empty interval on a pattern that
occurs in no sequence. -/
theorem searchInterval_absent (sa : SuffixArray) (rt : ReadTable) (b : BWT)
    (hv : ValidSA sa rt) (hb : BWT.construct sa rt = some b) (p : List Char) (hp : p ≠ [])
    (hbase : ∀ c ∈ p, isBase c) (habs : occurrences rt p = 0) :
    (b.searchInterval p).2 + 1 = (b.searchInterval p).1 := by
  have ok := indexOK_of_valid sa rt hv b hb
  have hlen : 0 < p.length := List.length_pos.mpr hp
  have hlo := lowerOf_drop_pos b _ ok p hbase 0 hlen
  rw [List.drop_zero] at hlo
  have hle := lowerOf_le_upperOf (saRows sa rt) p
  have h := (searchInterval_correct sa rt b hv hb p hp hbase).2
  rw [habs, searchInterval_eq b _ ok p hp hbase] at h
  rw [searchInterval_eq b _ ok p hp hbase]
  simp only [intervalOf] at h ⊢
  omega

/-- The state of the loop of `getPrefixHits` when `j` characters are left is
the interval of the pattern `w[j..L)`. -/
theorem searchInterval_factor (sa : SuffixArray) (rt : ReadTable) (b : BWT)
    (hv : ValidSA sa rt) (hb : BWT.construct sa rt = some b) (w : List Char)
    (hbase : ∀ c ∈ w, isBase c) (j : Nat) (hj : j < w.length) :
    b.searchInterval w =
      b.extendLoop w j (b.searchInterval (w.drop j)).1 (b.searchInterval (w.drop j)).2 := by
  have ok := indexOK_of_valid sa rt hv b hb
  have hw : w ≠ [] := fun h => by rw [h] at hj; exact Nat.not_lt_zero _ hj
  have hd : w.drop j ≠ [] := by
    rw [List.drop_eq_getElem_cons hj]
    exact List.cons_ne_nil _ _
  have hbj : ∀ c ∈ w.drop j, isBase c := fun c hc => hbase c (List.mem_of_mem_drop hc)
  rw [searchInterval_eq b _ ok w hw hbase, searchInterval_eq b _ ok (w.drop j) hd hbj]
  exact (extendLoop_eq b _ ok w hbase j hj).symm

theorem pred_add_count_le (l : List Char) (hl : ∀ c ∈ l, isSymbol c) (c : Char)
    (hc : isSymbol c) : (buildPredCount l).get c + l.count c ≤ l.length := by
  obtain ⟨g0, g1, g2, g3, g4⟩ := buildPredCount_get l
  obtain ⟨_, _, _, _, _, k5⟩ := countP_lt_symbols l hl
  rcases hc with h | h | h | h | h <;> subst h <;> omega

/-- The bounds that the loop of `getPrefixHits` ends with, for the first
character `c` of the pattern: `C(c) ≤ lower ≤ upper + 1 ≤ C(c) + count(c) ≤ N`
and `1 ≤ lower`. -/
theorem searchInterval_bounds (sa : SuffixArray) (rt : ReadTable) (b : BWT)
    (hv : ValidSA sa rt) (hb : BWT.construct sa rt = some b) (c : Char) (p : List Char)
    (hbase : ∀ x ∈ c :: p, isBase x) :
    b.PRED c ≤ (b.searchInterval (c :: p)).1 ∧
    (b.searchInterval (c :: p)).1 ≤ (b.searchInterval (c :: p)).2 + 1 ∧
    (b.searchInterval (c :: p)).2 + 1 ≤ b.PRED c + b.bwStr.count c ∧
    b.PRED c + b.bwStr.count c ≤ b.bwStr.length ∧
    1 ≤ (b.searchInterval (c :: p)).1 := by
  have ok := indexOK_of_valid sa rt hv b hb
  have hc : isBase c := hbase c (List.mem_cons_self c p)
  have h1 := lowerOf_cons b _ ok c hc p
  have h2 := upperOf_cons b _ ok c hc p
  have h3 := lowerOf_le_upperOf (saRows sa rt) (c :: p)
  have h4 := lowerOf_cons_pos b _ ok c hc p
  have h5 : (b.bwStr.take (upperOf (saRows sa rt) p)).count c ≤ b.bwStr.count c :=
    (List.take_sublist _ _).count_le c
  have h6 : b.PRED c + b.bwStr.count c ≤ b.bwStr.length := by
    rw [BWT.PRED, ok.pred_eq, ok.bwStr_eq]
    apply pred_add_count_le _ _ c (Or.inr hc)
    intro x hx
    obtain ⟨r, hr, rfl⟩ := List.mem_map.mp hx
    exact ok.rowsOK.symbols r hr
  rw [searchInterval_eq b _ ok (c :: p) (List.cons_ne_nil c p) hbase]
  simp only [intervalOf]
  omega

theorem occ_sizeDec (b : BWT) (c : Char) (k : Nat) (hk : k ≤ b.bwStr.length)
    (hN : b.bwStr.length < SIZE) : b.OCC c (sizeDec k) = (b.bwStr.take k).count c := by
  by_cases h0 : k = 0
  · subst h0
    simp [BWT.OCC, Occurance.get, sizeDec]
  · exact occ_eq_count b c k (by omega) (by omega)

theorem count_take_le (l : List Char) (c : Char) (lo up1 : Nat) (h : lo ≤ up1) :
    (l.take lo).count c ≤ (l.take up1).count c ∧
    (l.take up1).count c - (l.take lo).count c ≤ up1 - lo := by
  have e : l.take up1 = l.take lo ++ (l.take up1).drop lo := by
    have h1 := (List.take_append_drop lo (l.take up1)).symm
    rw [List.take_take, Nat.min_eq_left h] at h1
    exact h1
  have h2 : ((l.take up1).drop lo).count c ≤ up1 - lo := by
    refine le_trans (List.count_le_length c _) ?_
    rw [List.length_drop, List.length_take]
    omega
  have h3 : (l.take up1).count c = (l.take lo).count c + ((l.take up1).drop lo).count c := by
    conv_lhs => rw [e]
    rw [List.count_append]
  omega

/-- One extension step of the loop of `getPrefixHits` never widens the
interval: from `lower = lo` and `upper = up1 - 1` (kept as `sizeDec up1`) it
goes to bounds `lower1` and `upper1 = u1 - 1` with `lower1 ≤ u1` and
`u1 - lower1 ≤ up1 - lo`, and an empty interval stays empty. -/
theorem extend_step_narrows (b : BWT) (c : Char) (lo up1 : Nat) (h1 : lo ≤ up1)
    (h2 : up1 ≤ b.bwStr.length) (hN : b.bwStr.length < SIZE)
    (hC : b.PRED c + b.bwStr.count c < SIZE) :
    (b.PRED c + b.OCC c (sizeDec lo)) % SIZE = b.PRED c + (b.bwStr.take lo).count c ∧
    (b.PRED c + b.OCC c (sizeDec up1)) % SIZE = b.PRED c + (b.bwStr.take up1).count c ∧
    (b.PRED c + b.OCC c (sizeDec lo)) % SIZE ≤ (b.PRED c + b.OCC c (sizeDec up1)) % SIZE ∧
    (b.PRED c + b.OCC c (sizeDec up1)) % SIZE - (b.PRED c + b.OCC c (sizeDec lo)) % SIZE ≤
      up1 - lo ∧
    (lo = up1 →
      (b.PRED c + b.OCC c (sizeDec lo)) % SIZE = (b.PRED c + b.OCC c (sizeDec up1)) % SIZE) := by
  have k1 : (b.bwStr.take lo).count c ≤ b.bwStr.count c := (List.take_sublist _ _).count_le c
  have k2 : (b.bwStr.take up1).count c ≤ b.bwStr.count c := (List.take_sublist _ _).count_le c
  obtain ⟨k3, k4⟩ := count_take_le b.bwStr c lo up1 h1
  rw [occ_sizeDec b c lo (by omega) hN, occ_sizeDec b c up1 h2 hN,
    Nat.mod_eq_of_lt (by omega), Nat.mod_eq_of_lt (by omega)]
  refine ⟨rfl, rfl, by omega, by omega, ?_⟩
  intro h
  rw [h]
theorem extendLoop_saRepA (n lo hi : Nat) :
    (⟨buildPredCount (List.replicate n 'A' ++ ['$']), List.replicate n 'A' ++ ['$'], 1⟩ :
      BWT).extendLoop ['C'] 1 lo hi = ((n + 1 + 0) % SIZE, sizeDec ((n + 1 + 0) % SIZE)) := by
  simp only [BWT.extendLoop, BWT.PRED, BWT.OCC, List.getD_cons_zero, pred_C_saRepA,
    occ_C_saRepA]

/-! ## Serialisation lemmas -/

theorem takeWhile_append_stop {α : Type} (p : α → Bool) (l : List α) (x : α) (r : List α)
    (hl : ∀ a ∈ l, p a = true) (hx : p x = false) :
    (l ++ x :: r).takeWhile p = l := by
  induction l with
  | nil => simp [List.takeWhile, hx]
  | cons a l ih =>
    have ha : p a = true := hl a (List.mem_cons_self _ _)
    simp only [List.cons_append, List.takeWhile_cons, ha, if_true]
    rw [ih (fun b hb => hl b (List.mem_cons_of_mem _ hb))]

theorem dropWhile_append_stop {α : Type} (p : α → Bool) (l : List α) (x : α) (r : List α)
    (hl : ∀ a ∈ l, p a = true) (hx : p x = false) :
    (l ++ x :: r).dropWhile p = x :: r := by
  induction l with
  | nil => simp [List.dropWhile, hx]
  | cons a l ih =>
    have ha : p a = true := hl a (List.mem_cons_self _ _)
    simp only [List.cons_append, List.dropWhile_cons, ha, if_true]
    exact ih (fun b hb => hl b (List.mem_cons_of_mem _ hb))

theorem takeWhile_all {α : Type} (p : α → Bool) (l : List α) (hl : ∀ a ∈ l, p a = true) :
    l.takeWhile p = l := by
  induction l with
  | nil => rfl
  | cons a l ih =>
    have ha : p a = true := hl a (List.mem_cons_self _ _)
    simp only [List.takeWhile_cons, ha, if_true]
    rw [ih (fun b hb => hl b (List.mem_cons_of_mem _ hb))]

theorem dropWhile_all {α : Type} (p : α → Bool) (l : List α) (hl : ∀ a ∈ l, p a = true) :
    l.dropWhile p = [] := by
  induction l with
  | nil => rfl
  | cons a l ih =>
    have ha : p a = true := hl a (List.mem_cons_self _ _)
    simp only [List.dropWhile_cons, ha, if_true]
    exact ih (fun b hb => hl b (List.mem_cons_of_mem _ hb))

theorem digitChar_isDigit (d : Nat) (h : d < 10) : isDigit (digitChar d) = true := by
  interval_cases d <;> decide

theorem digitChar_not_space (d : Nat) (h : d < 10) : isSpace (digitChar d) = false := by
  interval_cases d <;> decide

theorem digitChar_val (d : Nat) (h : d < 10) : (digitChar d).toNat - 48 = d := by
  interval_cases d <;> decide

theorem digitsToNat_append (l : List Char) (c : Char) :
    digitsToNat (l ++ [c]) = 10 * digitsToNat l + (c.toNat - 48) := by
  simp [digitsToNat, List.foldl_append]

theorem digitsToNat_digits (ds : List Nat) (h : ∀ d ∈ ds, d < 10) :
    digitsToNat ((ds.reverse).map digitChar) = Nat.ofDigits 10 ds := by
  induction ds with
  | nil => rfl
  | cons d ds ih =>
    rw [List.reverse_cons, List.map_append, List.map_singleton, digitsToNat_append,
      ih (fun e he => h e (List.mem_cons_of_mem _ he)),
      digitChar_val d (h d (List.mem_cons_self _ _)), Nat.ofDigits_cons]
    omega

theorem writeNat_digits (n : Nat) : ∀ c ∈ writeNat n, isDigit c = true := by
  intro c hc
  unfold writeNat at hc
  split at hc
  · simp at hc; subst hc; decide
  · rw [List.mem_map] at hc
    obtain ⟨d, hd, rfl⟩ := hc
    exact digitChar_isDigit d (Nat.digits_lt_base (by decide) (List.mem_reverse.mp hd))

theorem writeNat_ne_nil (n : Nat) : writeNat n ≠ [] := by
  unfold writeNat
  split
  · simp
  · rename_i h
    simp [Nat.digits_ne_nil_iff_ne_zero, h]

theorem digitsToNat_writeNat (n : Nat) : digitsToNat (writeNat n) = n := by
  unfold writeNat
  split
  · rename_i h; subst h; rfl
  · rw [digitsToNat_digits _ (fun d hd => Nat.digits_lt_base (by decide) hd),
      Nat.ofDigits_digits]

theorem isDigit_not_space (c : Char) (h : isDigit c = true) : isSpace c = false := by
  unfold isDigit at h
  simp only [Bool.and_eq_true, decide_eq_true_eq] at h
  unfold isSpace
  have h1 : (48 : Nat) ≤ c.toNat := by
    have := h.1
    rw [Char.le_def] at this
    exact this
  simp only [Bool.or_eq_false_iff, decide_eq_false_iff_not]
  refine ⟨⟨⟨⟨⟨?_, ?_⟩, ?_⟩, ?_⟩, ?_⟩, ?_⟩ <;> (intro e; subst e; revert h1; decide)

theorem dropWhile_space_of_head (l r : List Char) (hne : l ≠ [])
    (hl : ∀ a ∈ l, isSpace a = false) : (l ++ r).dropWhile isSpace = l ++ r := by
  cases l with
  | nil => exact absurd rfl hne
  | cons a l =>
    simp [List.dropWhile_cons, hl a (List.mem_cons_self _ _)]

/-- A written number does not start with a sign. -/
theorem writeNat_head_no_sign (n : Nat) (r : List Char) :
    ((writeNat n ++ r).head? = some '-') = False ∧
      ((writeNat n ++ r).head? = some '+') = False := by
  cases hw : writeNat n with
  | nil => exact absurd hw (writeNat_ne_nil n)
  | cons d ds =>
    have hd : isDigit d = true := writeNat_digits n d (by rw [hw]; exact List.mem_cons_self _ _)
    simp only [List.cons_append, List.head?_cons, Option.some.injEq, eq_iff_iff, iff_false]
    constructor <;> (intro e; subst e; revert hd; decide)

/-- Reading back a written number that is followed by a character that is no digit. -/
theorem readNat_writeNat (n : Nat) (hn : n < SIZE) (x : Char) (r : List Char)
    (hx : isDigit x = false) :
    readNat (writeNat n ++ x :: r) = some (n, x :: r) := by
  unfold readNat
  have h1 : (writeNat n ++ x :: r).dropWhile isSpace = writeNat n ++ x :: r :=
    dropWhile_space_of_head _ _ (writeNat_ne_nil n)
      (fun a ha => isDigit_not_space a (writeNat_digits n a ha))
  obtain ⟨hm, hp⟩ := writeNat_head_no_sign n (x :: r)
  simp only [h1, hm, hp, or_self, if_false]
  rw [takeWhile_append_stop isDigit _ x r (writeNat_digits n) hx,
    dropWhile_append_stop isDigit _ x r (writeNat_digits n) hx, digitsToNat_writeNat]
  simp [writeNat_ne_nil, hn]

/-- Reading back a written number at the end of the stream. -/
theorem readNat_writeNat_end (n : Nat) (hn : n < SIZE) :
    readNat (writeNat n) = some (n, []) := by
  unfold readNat
  have h1 : (writeNat n).dropWhile isSpace = writeNat n := by
    have := dropWhile_space_of_head (writeNat n) [] (writeNat_ne_nil n)
      (fun a ha => isDigit_not_space a (writeNat_digits n a ha))
    simpa using this
  obtain ⟨hm, hp⟩ := writeNat_head_no_sign n []
  rw [List.append_nil] at hm hp
  simp only [h1, hm, hp, or_self, if_false]
  rw [takeWhile_all isDigit _ (writeNat_digits n), dropWhile_all isDigit _ (writeNat_digits n),
    digitsToNat_writeNat]
  simp [writeNat_ne_nil, hn]

theorem readNat_skip (x : Char) (s : List Char) (hx : isSpace x = true) :
    readNat (x :: s) = readNat s := by
  unfold readNat
  simp [List.dropWhile_cons, hx]

theorem readWord_skip (x : Char) (s : List Char) (hx : isSpace x = true) :
    readWord (x :: s) = readWord s := by
  unfold readWord
  simp [List.dropWhile_cons, hx]

/-- Reading a token that is followed by white space. -/
theorem readWord_token (tok : List Char) (x : Char) (r : List Char) (hne : tok ≠ [])
    (htok : ∀ c ∈ tok, isSpace c = false) (hx : isSpace x = true) :
    readWord (tok ++ x :: r) = some (tok, x :: r) := by
  unfold readWord
  have h1 : (tok ++ x :: r).dropWhile isSpace = tok ++ x :: r :=
    dropWhile_space_of_head _ _ hne htok
  simp only [h1]
  rw [takeWhile_append_stop (fun c => !isSpace c) _ x r (fun a ha => by simp [htok a ha])
      (by simp [hx]),
    dropWhile_append_stop (fun c => !isSpace c) _ x r (fun a ha => by simp [htok a ha])
      (by simp [hx])]
  simp [hne]

/-- The input operator on a text of the persisted layout: whatever length the
text declares, the record read has the token as its BWT string. -/
theorem readBWT_text {O : Type} (resizeOk : Nat → Bool) (wAC : AlphaCount → List Char)
    (wOcc : O → List Char) (rAC : List Char → Option (AlphaCount × List Char))
    (rOcc : List Char → Option (O × List Char))
    (ns n : Nat) (tok : List Char) (pc : AlphaCount) (occ : O)
    (hAC : ∀ r, rAC ('\n' :: (wAC pc ++ '\n' :: r)) = some (pc, '\n' :: r))
    (hOcc : rOcc ('\n' :: wOcc occ) = some (occ, []))
    (hns : ns < SIZE) (hn : n < SIZE) (hres : resizeOk n = true) (hne : tok ≠ [])
    (htok : ∀ c ∈ tok, isSpace c = false) :
    readBWT resizeOk rAC rOcc (writeNat ns ++ ['\n'] ++ writeNat n ++ ['\n'] ++ tok ++ ['\n'] ++
      wAC pc ++ ['\n'] ++ wOcc occ) = some ((⟨pc, tok, ns⟩, occ), []) := by
  have e : writeNat ns ++ ['\n'] ++ writeNat n ++ ['\n'] ++ tok ++ ['\n'] ++ wAC pc ++ ['\n'] ++
      wOcc occ = writeNat ns ++ '\n' :: (writeNat n ++ '\n' :: (tok ++ '\n' ::
        (wAC pc ++ '\n' :: wOcc occ))) := by
    simp [List.append_assoc]
  rw [e]
  unfold readBWT
  rw [readNat_writeNat ns hns '\n' _ (by decide)]
  simp only [Option.bind_eq_bind, Option.some_bind]
  rw [readNat_skip '\n' _ (by decide), readNat_writeNat n hn '\n' _ (by decide)]
  simp only [Option.some_bind, hres, if_true]
  rw [readWord_skip '\n' _ (by decide), readWord_token tok '\n' _ hne htok (by decide)]
  simp only [Option.some_bind]
  rw [hAC]
  simp only [Option.some_bind]
  rw [hOcc]
  rfl

theorem isSymbol_not_space (c : Char) (h : isSymbol c) : isSpace c = false := by
  unfold isSymbol isBase at h
  rcases h with h | h | h | h | h <;> (subst h; decide)

/-- The reader of `AlphaCount` reads back what the writer wrote, in front of a
line end. -/
theorem readAlphaCount_write (a : AlphaCount) (r : List Char)
    (h0 : a.nSent < SIZE) (h1 : a.nA < SIZE) (h2 : a.nC < SIZE) (h3 : a.nG < SIZE)
    (h4 : a.nT < SIZE) :
    readAlphaCount ('\n' :: (writeAlphaCount a ++ '\n' :: r)) = some (a, '\n' :: r) := by
  have e : writeAlphaCount a ++ '\n' :: r = writeNat a.nSent ++ ' ' :: (writeNat a.nA ++ ' ' ::
      (writeNat a.nC ++ ' ' :: (writeNat a.nG ++ ' ' :: (writeNat a.nT ++ '\n' :: r)))) := by
    simp [writeAlphaCount, List.append_assoc]
  rw [e]
  unfold readAlphaCount
  rw [readNat_skip '\n' _ (by decide), readNat_writeNat _ h0 ' ' _ (by decide)]
  simp only [Option.bind_eq_bind, Option.some_bind]
  rw [readNat_skip ' ' _ (by decide), readNat_writeNat _ h1 ' ' _ (by decide)]
  simp only [Option.some_bind]
  rw [readNat_skip ' ' _ (by decide), readNat_writeNat _ h2 ' ' _ (by decide)]
  simp only [Option.some_bind]
  rw [readNat_skip ' ' _ (by decide), readNat_writeNat _ h3 ' ' _ (by decide)]
  simp only [Option.some_bind]
  rw [readNat_skip ' ' _ (by decide), readNat_writeNat _ h4 '\n' _ (by decide)]
  rfl

/-- The reader of a count reads back a written count after a line end, at the
end of the stream. -/
theorem readNat_line_end (n : Nat) (hn : n < SIZE) :
    readNat ('\n' :: writeNat n) = some (n, []) := by
  rw [readNat_skip '\n' _ (by decide), readNat_writeNat_end n hn]

theorem bwSymbol_symbol (rt : ReadTable) (hbases : ∀ si ∈ rt, ∀ c ∈ si.seq, isBase c)
    (e : SAElem) (c : Char) (h : bwSymbol rt e = some c) : isSymbol c := by
  unfold bwSymbol at h
  cases hsi : rt[e.id]? with
  | none => rw [hsi] at h; exact Option.noConfusion h
  | some si =>
    rw [hsi] at h
    simp only [Option.bind_eq_bind, Option.some_bind] at h
    by_cases hl : (if e.pos = 0 then si.seq.length else e.pos - 1) = si.seq.length
    · rw [if_pos hl] at h
      cases h
      exact Or.inl rfl
    · rw [if_neg hl] at h
      exact Or.inr (hbases si (List.getElem?_mem hsi) c (List.getElem?_mem h))

/-- The BWT string that the constructor builds from sequences over the bases
is over the alphabet. -/
theorem construct_symbols (sa : SuffixArray) (rt : ReadTable) (b : BWT)
    (hb : BWT.construct sa rt = some b) (hbases : ∀ si ∈ rt, ∀ c ∈ si.seq, isBase c) :
    ∀ c ∈ b.bwStr, isSymbol c := by
  intro c hc
  obtain ⟨hm, _, _⟩ := construct_some sa rt b hb
  obtain ⟨hlen, hget⟩ := mapM_some_length _ _ _ hm
  obtain ⟨i, hi, hic⟩ := List.getElem_of_mem hc
  have hi2 : i < sa.elems.length := by omega
  have h1 := hget i hi2
  rw [List.getElem?_eq_getElem hi, hic] at h1
  exact bwSymbol_symbol rt hbases _ c h1.symm

/-! ## `backwardSearch` -/

/-- C1, code at a failing input.  Table: the single sequence of `2 ^ 31`
symbols `T`, with its valid suffix array.  The pattern "T" occurs `2 ^ 31`
times, in the rows `1..2 ^ 31`; the `size_t` loop of `getPrefixHits` ends with
exactly these bounds, but `backwardSearch` keeps them in `int` and its upper
bound is `-2 ^ 31`. -/
theorem backwardSearch_truncates :
    ValidSA (saRep (2 ^ 31)) (rtRep (2 ^ 31)) ∧
    ∃ b, BWT.construct (saRep (2 ^ 31)) (rtRep (2 ^ 31)) = some b ∧
      b.searchInterval ['T'] = (1, 2 ^ 31) ∧
      b.backwardSearch ['T'] = (1, -(2 ^ 31)) := by
  have hn : 2 ^ 31 + 1 < SIZE := by decide
  refine ⟨validSA_saRep _ hn, _, construct_saRep _ hn, searchInterval_saRep _ hn, ?_⟩
  rw [BWT.backwardSearch, backwardSearchBits_saRep _ hn]
  decide
/-! ## The constructor -/

/-- C6. BWT construction rule: when every suffix-array element names a sequence
of the table and an offset `0..len` of it, the constructor returns an index;
and whenever it returns one, the BWT string has the size of the suffix array and
at every position whose element `(id, f)` has `f ≤ len` the symbol is `$` for
`f = 0` and `seq[id][f - 1]` otherwise. -/
theorem construct_rule (sa : SuffixArray) (rt : ReadTable) :
    ((∀ e ∈ sa.elems, ∃ si, rt[e.id]? = some si ∧ e.pos ≤ si.seq.length) →
      ∃ b, BWT.construct sa rt = some b) ∧
    ∀ b, BWT.construct sa rt = some b →
      b.bwStr.length = sa.getSize ∧
      ∀ (i : Nat) (hi : i < sa.elems.length) (si : SeqItem),
        rt[sa.elems[i].id]? = some si → sa.elems[i].pos ≤ si.seq.length →
        b.bwStr[i]? =
          some (if sa.elems[i].pos = 0 then '$' else si.seq.getD (sa.elems[i].pos - 1) '$') := by
  constructor
  · intro hall
    have h : sa.elems.mapM (bwSymbol rt) = some (sa.elems.map (bwSym rt)) := by
      apply mapM_eq_some_map
      intro e he
      obtain ⟨si, hsi, hpos⟩ := hall e he
      simp only [bwSym]
      rw [bwSymbol_eq rt si e.id e.pos hsi hpos]
      rfl
    exact ⟨_, by simp only [BWT.construct, h]; rfl⟩
  · intro b hb
    obtain ⟨hm, _, _⟩ := construct_some sa rt b hb
    obtain ⟨hlen, hget⟩ := mapM_some_length _ _ _ hm
    refine ⟨hlen, ?_⟩
    intro i hi si hsi hpos
    rw [hget i hi]
    exact bwSymbol_eq rt si _ _ hsi hpos

/-- C6, at the table "ACGT", "CGTA": row 4 is the suffix `(0, 1)` and holds
`seq[0][0] = 'A'`. -/
theorem construct_rule_witness :
    ∃ b, BWT.construct saEx rtEx = some b ∧ b.bwStr.length = 10 ∧ b.bwStr[4]? = some 'A' := by
  obtain ⟨b, hb⟩ := (construct_rule saEx rtEx).1 (by decide)
  obtain ⟨hlen, hrule⟩ := (construct_rule saEx rtEx).2 b hb
  exact ⟨b, hb, hlen, hrule 4 (by decide) ⟨['A', 'C', 'G', 'T']⟩ rfl (by decide)⟩

/-- C7. The BWT string is a rearrangement of the input: for a suffix array that
lists every offset `0..len` of every sequence once, in any order, over a table
of base sequences, the constructor returns an index whose BWT string has length
total bases plus `numStrings`, holds exactly `numStrings` sentinels and holds
every base as often as the sequences do. -/
theorem bwt_rearrangement (sa : SuffixArray) (rt : ReadTable)
    (hperm : sa.elems.Perm (allElemsFrom 0 rt)) (hnum : sa.numStrings = rt.length)
    (hbases : ∀ si ∈ rt, ∀ c ∈ si.seq, isBase c) :
    ∃ b, BWT.construct sa rt = some b ∧
      b.bwStr.length = (rt.map (fun si => si.seq.length)).sum + sa.numStrings ∧
      b.bwStr.count '$' = sa.numStrings ∧
      ∀ c, isBase c → b.bwStr.count c = (rt.map (fun si => si.seq.count c)).sum := by
  refine ⟨_, construct_eq_of_perm sa rt hperm, ?_, ?_, ?_⟩
  · show ((saRows sa rt).map Prod.fst).length = _
    rw [List.length_map, (saRows_perm_of_perm sa rt hperm).length_eq, tableRows_length, hnum]
  · show ((saRows sa rt).map Prod.fst).count '$' = _
    rw [((saRows_perm_of_perm sa rt hperm).map Prod.fst).count_eq,
      count_sentinel_tableRows rt hbases, hnum]
  · intro c hc
    show ((saRows sa rt).map Prod.fst).count c = _
    rw [((saRows_perm_of_perm sa rt hperm).map Prod.fst).count_eq, count_base_tableRows rt c hc]

/-- C7, at the table "ACGT", "CGTA": ten symbols, two sentinels, two `G`. -/
theorem bwt_rearrangement_witness :
    ∃ b, BWT.construct saEx rtEx = some b ∧ b.bwStr.length = 8 + 2 ∧ b.bwStr.count '$' = 2 ∧
      b.bwStr.count 'G' = 2 := by
  obtain ⟨b, hb, h1, h2, h3⟩ := bwt_rearrangement saEx rtEx (by decide) (by decide) (by decide)
  exact ⟨b, hb, h1, h2, h3 'G' (by decide)⟩

/-- C8. The cumulative table equals its reference definition: for a BWT string
over the alphabet produced by the constructor, the stored `C(a)` is the number
of positions whose symbol is smaller than `a`; `C($) = 0`, the table grows from
each symbol to the next by the count of that symbol, and `C(T)` plus the count
of `T` is the length `N`. -/
theorem predCount_reference (sa : SuffixArray) (rt : ReadTable) (b : BWT)
    (hb : BWT.construct sa rt = some b) (hsym : ∀ c ∈ b.bwStr, isSymbol c) :
    (∀ a, isSymbol a → b.PRED a = b.bwStr.countP (fun x => decide (x < a))) ∧
    b.PRED '$' = 0 ∧
    b.PRED 'A' = b.PRED '$' + b.bwStr.count '$' ∧
    b.PRED 'C' = b.PRED 'A' + b.bwStr.count 'A' ∧
    b.PRED 'G' = b.PRED 'C' + b.bwStr.count 'C' ∧
    b.PRED 'T' = b.PRED 'G' + b.bwStr.count 'G' ∧
    b.PRED 'T' + b.bwStr.count 'T' = b.bwStr.length ∧
    (b.PRED '$' ≤ b.PRED 'A' ∧ b.PRED 'A' ≤ b.PRED 'C' ∧ b.PRED 'C' ≤ b.PRED 'G' ∧
      b.PRED 'G' ≤ b.PRED 'T') := by
  obtain ⟨_, hpc, _⟩ := construct_some sa rt b hb
  obtain ⟨g0, g1, g2, g3, g4⟩ := buildPredCount_get b.bwStr
  obtain ⟨_, _, _, _, _, k5⟩ := countP_lt_symbols b.bwStr hsym
  simp only [BWT.PRED, hpc]
  refine ⟨fun a ha => pred_eq_countP_lt b.bwStr hsym a ha, g0, ?_, ?_, ?_, ?_, ?_, ?_⟩ <;> omega

/-- C8, at the table "ACGT", "CGTA": `C(G) = 6`, the six symbols `$$AACC`. -/
theorem predCount_reference_witness :
    ∃ b, BWT.construct saEx rtEx = some b ∧ b.PRED 'G' = 6 ∧
      b.bwStr.countP (fun x => decide (x < 'G')) = 6 := by
  refine ⟨_, rfl, rfl, ?_⟩
  rw [← (predCount_reference saEx rtEx _ rfl (by decide)).1 'G' (by decide)]
  rfl

/-! ## `LF` -/

/-- C10. LF formula: for every index whose size a `size_t` holds and every row
`i < N`, `LF(i)` is `0` when `BWT[i]` is the sentinel and otherwise
`C(BWT[i]) + rank(BWT[i], i)` in `size_t` arithmetic, `rank(c, i)` being the
number of `c` among the positions `0..i`; the sum is exact when it is below
`2 ^ 64`. -/
theorem LF_formula (b : BWT) (i : Nat) (hi : i < b.bwStr.length) (hN : b.bwStr.length < SIZE) :
    b.LF i = some (if b.bwStr[i] = '$' then 0
      else (b.PRED b.bwStr[i] + (b.bwStr.take (i + 1)).count b.bwStr[i]) % SIZE) ∧
    (b.PRED b.bwStr[i] + (b.bwStr.take (i + 1)).count b.bwStr[i] < SIZE →
      b.LF i = some (if b.bwStr[i] = '$' then 0
        else b.PRED b.bwStr[i] + (b.bwStr.take (i + 1)).count b.bwStr[i])) := by
  have hne : i ≠ SIZE - 1 := by omega
  have h : b.LF i = some (if b.bwStr[i] = '$' then 0
      else (b.PRED b.bwStr[i] + (b.bwStr.take (i + 1)).count b.bwStr[i]) % SIZE) := by
    simp only [BWT.LF, List.getElem?_eq_getElem hi, BWT.OCC, Occurance.get, if_neg hne,
      Option.bind_eq_bind, Option.some_bind]
    by_cases hc : b.bwStr[i] = '$'
    · simp [hc]
    · simp [hc]
  refine ⟨h, fun hlt => ?_⟩
  rw [h, Nat.mod_eq_of_lt hlt]

/-- C10, at the table "ACGT", "CGTA": row 4 holds `A`, `C(A) = 2`, two `A` in
rows `0..4`, and `LF(4) = 4`. -/
theorem LF_formula_witness :
    ∃ b, BWT.construct saEx rtEx = some b ∧ b.bwStr[4]? = some 'A' ∧ b.LF 4 = some 4 := by
  refine ⟨_, rfl, rfl, ?_⟩
  exact (LF_formula _ 4 (by decide) (by decide)).2 (by decide)
/-! ## `getPrefixHits` -/

/-- C4, code at a failing input.  Table: the single sequence "T"; query "AT"
with `minOverlap = 2`.  No sequence starts with "AT", yet at offset `0` the
bound `t_upper = C($) + rank($, upper) - 1` wraps to `2 ^ 64 - 1`: the emission
loop never ends, whatever the fuel, and it appends hits with offset `0` (one
unit of fuel already appends the hit with index `0`). -/
theorem getPrefixHits_wraps_on_no_overlap :
    ∃ b, BWT.construct saT rtT = some b ∧
      ¬ (['A', 'T'] <+: seqOf rtT 0) ∧
      (∀ fuel, ∃ new, b.getPrefixHits fuel 0 ['A', 'T'] 2 false false [] = .error new ∧
        ∀ h ∈ new, h.qstart = 0) ∧
      b.getPrefixHits 1 0 ['A', 'T'] 2 false false [] = .error [⟨0, 0, 0, 2, false, false⟩] := by
  refine ⟨_, rfl, by decide, ?_, rfl⟩
  intro fuel
  obtain ⟨new, h1, h2⟩ := getPrefixHitsLoop_diverges
    ⟨buildPredCount ['T', '$'], ['T', '$'], 1⟩ fuel 0 ['A', 'T'] 2 false false 0 1 1 []
    (by decide) (by decide)
  exact ⟨new, h1, h2⟩

/-- C2, code at a failing input.  Table: the sequences "CAA" (id 0) and "CAAT"
(id 1); query "CAA" of sequence 0 with `minOverlap = 2`.  The other sequence,
"CAAT", starts with the whole query (offset `0`, length 3), and with
`minOverlap = 3` the call returns that hit, whose index 1 is an element of
"CAAT".  With `minOverlap = 2` the step before it (offset `1`, "AA", no sequence
starts with it) wraps `t_upper`: the call never returns, whatever the fuel, and
every hit it appends has offset `1`, so the overlap with "CAAT" is never
appended.  The scenario of the claim, "ACGT" against "ACGT", "CGTA" with
`minOverlap = 3`, does return its hit of length 3, whose index 1 is an element
of "CGTA". -/
theorem getPrefixHits_misses_overlap :
    (ValidSA saCAAT rtCAAT ∧ SentinelAligned saCAAT ∧
      ∃ b, BWT.construct saCAAT rtCAAT = some b ∧
        (['C', 'A', 'A'].drop 0 <+: seqOf rtCAAT 1) ∧
        (b.getPrefixHits 5 0 ['C', 'A', 'A'] 3 false false [] =
          .ok [⟨0, 0, 0, 3, false, false⟩, ⟨0, 1, 0, 3, false, false⟩]) ∧
        saCAAT.elems[1]? = some ⟨1, 4⟩ ∧
        ∀ fuel, ∃ new, b.getPrefixHits fuel 0 ['C', 'A', 'A'] 2 false false [] = .error new ∧
          ∀ h ∈ new, h.qstart = 1) ∧
    (∃ b, BWT.construct saEx rtEx = some b ∧
      b.getPrefixHits 5 0 ['A', 'C', 'G', 'T'] 3 false false [] =
        .ok [⟨0, 1, 1, 3, false, false⟩, ⟨0, 0, 0, 4, false, false⟩] ∧
      saEx.elems[1]? = some ⟨1, 4⟩ ∧ seqOf rtEx 1 = ['C', 'G', 'T', 'A']) := by
  refine ⟨⟨validSA_saCAAT, by decide, _, rfl, by decide, rfl, rfl, ?_⟩, ⟨_, rfl, rfl, rfl, rfl⟩⟩
  intro fuel
  obtain ⟨new, h1, h2⟩ := getPrefixHitsLoop_diverges
    ⟨buildPredCount ['A', 'T', 'A', 'C', 'C', 'A', '$', '$', 'A'],
      ['A', 'T', 'A', 'C', 'C', 'A', '$', '$', 'A'], 2⟩ fuel 0 ['C', 'A', 'A'] 2
    false false 1 2 5 [] (by decide) (by decide)
  exact ⟨new, h1, h2⟩

/-- C5, code at a failing input.  Table: the single sequence "AC"; the query
is sequence `0` itself with `minOverlap = 2`.  The call returns one hit, of
length 2, whose suffix-array index `0` is an element of sequence `0`: the
sequence is reported as overlapping itself. -/
theorem getPrefixHits_reports_self :
    ∃ b, BWT.construct saAC rtAC = some b ∧
      b.getPrefixHits 2 0 (seqOf rtAC 0) 2 false false [] = .ok [⟨0, 0, 0, 2, false, false⟩] ∧
      saAC.elems[0]? = some ⟨0, 2⟩ :=
  ⟨_, rfl, rfl, rfl⟩

/-- C9, code at a failing input.  Table: the single sequence "AC", rows "$",
"AC$", "C$".  Row `0` holds the symbol `C`, which is not the sentinel; the row
of "C$" is row `2`, but `LF(0) = C(C) + rank(C, 0) = 2 + 1 = 3 = N`, one past
it and outside the rows. -/
theorem LF_off_by_one :
    ∃ b, BWT.construct saAC rtAC = some b ∧ b.bwStr.length = 3 ∧ b.bwStr[0]? = some 'C' ∧
      b.LF 0 = some 3 ∧ suffixOf rtAC ⟨0, 1⟩ = 'C' :: suffixOf rtAC ⟨0, 2⟩ ∧
      saAC.elems[2]? = some ⟨0, 1⟩ ∧ saAC.elems[0]? = some ⟨0, 2⟩ :=
  ⟨_, rfl, rfl, rfl, rfl, rfl, rfl, rfl⟩
/-- C16, code at a failing input.  Table: the single sequence "AC" (length
2); the suffix array holds the element `(0, 3)`, an offset past the allowed
range `[0, 2]`.  The constructor returns an index and the BWT symbol of that
element is a sentinel: `l_pos = f_pos - 1 = 2` equals the sequence length, the
value that marks offset `0`.  From offset `4` on the constructor does fail. -/
theorem construct_accepts_offset_past_end :
    (seqOf rtAC 0).length = 2 ∧ saACpast.elems[0]? = some ⟨0, 3⟩ ∧
    BWT.construct saACpast rtAC = some ⟨buildPredCount ['$', '$', 'A'], ['$', '$', 'A'], 1⟩ ∧
    bwSymbol rtAC ⟨0, 3⟩ = some '$' ∧
    BWT.construct ⟨[⟨0, 4⟩, ⟨0, 0⟩, ⟨0, 1⟩], 1⟩ rtAC = none :=
  ⟨rfl, rfl, rfl, rfl, rfl⟩

/-! ## The `LF` cycle -/

/-- C11, code at a failing input.  Table: the single sequence "AC"
(`numStrings = 1`, `N = 3`, BWT string "C$A" with one sentinel).  From row `0`
the first application of `LF` gives `3 = N`, outside the rows, and the second
reads outside the BWT string; from row `1` the same happens one step later.
Row `0` is not reached again. -/
theorem LF_cycle_leaves_rows :
    ∃ b, BWT.construct saAC rtAC = some b ∧ b.numStrings = 1 ∧ b.bwStr.length = 3 ∧
      b.bwStr.count '$' = 1 ∧
      iterLF b 1 0 = some 3 ∧ iterLF b 3 0 = none ∧
      iterLF b 1 1 = some 0 ∧ iterLF b 2 1 = some 3 ∧ iterLF b 3 1 = none :=
  ⟨_, rfl, rfl, rfl, rfl, rfl, rfl, rfl, rfl, rfl⟩
/-! ## `backwardSearch` on an index of `2 ^ 31` rows -/

/-- C12, code at a failing input.  Table: the single sequence of `2 ^ 31 - 1`
symbols `A` with its valid suffix array (`N = 2 ^ 31` rows).  The pattern "C"
occurs in no sequence and the `size_t` loop of `getPrefixHits` ends with the
empty interval `(2 ^ 31, 2 ^ 31 - 1)`; `backwardSearch` keeps the bounds in
`int` and ends with `lower = -2 ^ 31 ≤ upper = 2 ^ 31 - 1`, a non-empty
interval. -/
theorem backwardSearch_absent_not_empty :
    ValidSA (saRep (2 ^ 31 - 1)) (rtRepA (2 ^ 31 - 1)) ∧
    occurrences (rtRepA (2 ^ 31 - 1)) ['C'] = 0 ∧
    ∃ b, BWT.construct (saRep (2 ^ 31 - 1)) (rtRepA (2 ^ 31 - 1)) = some b ∧
      b.searchInterval ['C'] = (2 ^ 31, 2 ^ 31 - 1) ∧
      b.backwardSearch ['C'] = (-(2 ^ 31), 2 ^ 31 - 1) ∧
      (b.backwardSearch ['C']).1 ≤ (b.backwardSearch ['C']).2 := by
  have hn : 2 ^ 31 - 1 + 1 < SIZE := by decide
  have hv := validSA_saRepA _ hn
  have hc := construct_saRepA _ hn
  have hs := searchInterval_saRepA _ hn
  have hocc := (searchInterval_correct _ _ _ hv hc ['C'] (by decide) (by decide)).2
  rw [hs] at hocc
  have hbs : (⟨buildPredCount (List.replicate (2 ^ 31 - 1) 'A' ++ ['$']),
      List.replicate (2 ^ 31 - 1) 'A' ++ ['$'], 1⟩ : BWT).backwardSearch ['C'] =
      (-(2 ^ 31), 2 ^ 31 - 1) := by
    rw [BWT.backwardSearch, backwardSearchBits_saRepA]
    decide
  refine ⟨hv, ?_, _, hc, hs, hbs, ?_⟩
  · rw [← hocc]
    decide
  · rw [hbs]
    decide

/-- C13, code at a failing input.  Table: the single sequence of `2 ^ 31`
symbols `T` (`N = 2 ^ 31 + 1` rows), pattern "T".  After the initialisation
`backwardSearch` holds `lower = 1` and `upper = -2 ^ 31` in its `int` bounds:
`lower ≤ upper + 1` fails, and `upper` passed on as the `size_t` argument of
`rank` is `2 ^ 64 - 2 ^ 31`, far outside `[-1, N - 1]`. -/
theorem backwardSearch_bounds_out_of_range :
    ∃ b, BWT.construct (saRep (2 ^ 31)) (rtRep (2 ^ 31)) = some b ∧
      b.bwStr.length = 2 ^ 31 + 1 ∧
      b.backwardSearchBits ['T'] = (1, 2 ^ 31) ∧
      intVal (b.backwardSearchBits ['T']).1 = 1 ∧
      intVal (b.backwardSearchBits ['T']).2 = -(2 ^ 31) ∧
      ¬ (intVal (b.backwardSearchBits ['T']).1 ≤ intVal (b.backwardSearchBits ['T']).2 + 1) ∧
      sizeOfInt (b.backwardSearchBits ['T']).2 = 2 ^ 64 - 2 ^ 31 ∧
      b.bwStr.length ≤ sizeOfInt (b.backwardSearchBits ['T']).2 := by
  have hn : 2 ^ 31 + 1 < SIZE := by decide
  have hbits : (⟨buildPredCount (List.replicate (2 ^ 31) 'T' ++ ['$']),
      List.replicate (2 ^ 31) 'T' ++ ['$'], 1⟩ : BWT).backwardSearchBits ['T'] =
      (1, 2 ^ 31) := by
    rw [backwardSearchBits_saRep _ hn]
    decide
  have hlen : (List.replicate (2 ^ 31) 'T' ++ ['$']).length = 2 ^ 31 + 1 := by
    rw [List.length_append, List.length_replicate, List.length_singleton]
  refine ⟨_, construct_saRep _ hn, hlen, hbits, ?_, ?_, ?_, ?_, ?_⟩
  · rw [hbits]; decide
  · rw [hbits]; decide
  · rw [hbits]; decide
  · rw [hbits]; decide
  · rw [hbits]
    show (List.replicate (2 ^ 31) 'T' ++ ['$']).length ≤ _
    rw [hlen]
    decide

/-- C18, code at a failing input.  Table: the single sequence of `2 ^ 31 - 1`
symbols `A` (`N = 2 ^ 31` rows); the interval `lower = 0`, `upper = N - 1` of all
rows and one extension step by the symbol `C`.  The step is
`lower1 = C(C) + rank(C, -1) = 2 ^ 31`, `upper1 = C(C) + rank(C, N - 1) - 1 =
2 ^ 31 - 1`, an empty interval, and the `size_t` loop of `getPrefixHits`
computes it; the `int` bounds of `backwardSearch` hold `-2 ^ 31` and
`2 ^ 31 - 1`, an interval of `2 ^ 32` rows, wider than the `2 ^ 31` rows it
started from. -/
theorem backwardSearch_step_widens :
    ∃ b, BWT.construct (saRep (2 ^ 31 - 1)) (rtRepA (2 ^ 31 - 1)) = some b ∧
      b.bwStr.length = 2 ^ 31 ∧
      b.extendLoop ['C'] 1 0 (2 ^ 31 - 1) = (2 ^ 31, 2 ^ 31 - 1) ∧
      intVal (b.backwardSearchLoop ['C'] 1 0 (2 ^ 31 - 1)).1 = -(2 ^ 31) ∧
      intVal (b.backwardSearchLoop ['C'] 1 0 (2 ^ 31 - 1)).2 = 2 ^ 31 - 1 ∧
      intVal (b.backwardSearchLoop ['C'] 1 0 (2 ^ 31 - 1)).2 -
        intVal (b.backwardSearchLoop ['C'] 1 0 (2 ^ 31 - 1)).1 + 1 = 2 ^ 32 := by
  have hn : 2 ^ 31 - 1 + 1 < SIZE := by decide
  have hlen : (List.replicate (2 ^ 31 - 1) 'A' ++ ['$']).length = 2 ^ 31 := by
    rw [List.length_append, List.length_replicate, List.length_singleton]
    decide
  refine ⟨_, construct_saRepA _ hn, hlen, ?_, ?_, ?_, ?_⟩
  · rw [extendLoop_saRepA]; decide
  · rw [backwardSearchLoop_saRepA]; decide
  · rw [backwardSearchLoop_saRepA]; decide
  · rw [backwardSearchLoop_saRepA]; decide

/-! ## Serialisation -/

/-- C14. Serialisation round trip: an index built by the constructor from
sequences over the bases, with `N ≥ 1` rows, with `numStrings` and `N` in the
range of `size_t` and `N` a size to which the string can be resized, is written by `operator<<` in the order `numStrings`,
`N`, BWT string, cumulative table, rank table, and `operator>>` reads from that
text the same index and the same rank table, so that rank, cumulative table,
`LF` and backward search of what was read are those of the index written.  The
readers of `AlphaCount` and of the rank table are taken to read back what their
writers wrote. -/
theorem serialise_round_trip {O : Type} (resizeOk : Nat → Bool) (wAC : AlphaCount → List Char)
    (wOcc : O → List Char) (rAC : List Char → Option (AlphaCount × List Char))
    (rOcc : List Char → Option (O × List Char))
    (sa : SuffixArray) (rt : ReadTable) (b : BWT) (occ : O)
    (hb : BWT.construct sa rt = some b)
    (hbases : ∀ si ∈ rt, ∀ c ∈ si.seq, isBase c)
    (hN : 1 ≤ b.bwStr.length) (hsize : b.bwStr.length < SIZE)
    (hres : resizeOk b.bwStr.length = true) (hns : b.numStrings < SIZE)
    (hAC : ∀ r, rAC ('\n' :: (wAC b.predCount ++ '\n' :: r)) = some (b.predCount, '\n' :: r))
    (hOcc : rOcc ('\n' :: wOcc occ) = some (occ, [])) :
    writeBWT wAC wOcc b occ =
        writeNat b.numStrings ++ ['\n'] ++ writeNat b.bwStr.length ++ ['\n'] ++ b.bwStr ++
          ['\n'] ++ wAC b.predCount ++ ['\n'] ++ wOcc occ ∧
      readBWT resizeOk rAC rOcc (writeBWT wAC wOcc b occ) = some ((b, occ), []) ∧
      ∀ b2 o2 rest, readBWT resizeOk rAC rOcc (writeBWT wAC wOcc b occ) = some ((b2, o2), rest) →
        b2.numStrings = b.numStrings ∧ b2.bwStr = b.bwStr ∧ b2.predCount = b.predCount ∧
        o2 = occ ∧ (∀ c i, b2.OCC c i = b.OCC c i) ∧ (∀ c, b2.PRED c = b.PRED c) ∧
        (∀ i, b2.LF i = b.LF i) ∧ (∀ w, b2.backwardSearch w = b.backwardSearch w) ∧
        (∀ w, b2.searchInterval w = b.searchInterval w) := by
  have hne : b.bwStr ≠ [] := by
    intro h
    rw [h] at hN
    exact absurd hN (by decide)
  have hread : readBWT resizeOk rAC rOcc (writeBWT wAC wOcc b occ) = some ((b, occ), []) :=
    readBWT_text resizeOk wAC wOcc rAC rOcc b.numStrings b.bwStr.length b.bwStr b.predCount occ
      hAC hOcc hns hsize hres hne (fun c hc => isSymbol_not_space c (construct_symbols sa rt b hb hbases c hc))
  refine ⟨rfl, hread, ?_⟩
  intro b2 o2 rest h2
  rw [hread] at h2
  simp only [Option.some.injEq, Prod.mk.injEq] at h2
  obtain ⟨⟨h3, h4⟩, _⟩ := h2
  subst h3
  subst h4
  exact ⟨rfl, rfl, rfl, rfl, fun _ _ => rfl, fun _ => rfl, fun _ => rfl, fun _ => rfl,
    fun _ => rfl⟩

/-- C14, at the index of "ACGT", "CGTA" (BWT string "TAT$A$CCGG"), with the
five counts separated by blanks as the text of the cumulative table, one count
as the text of the rank table, and strings that can be resized to `2 ^ 20`
characters. -/
theorem serialise_round_trip_witness :
    BWT.construct saEx rtEx = some bwtEx ∧
      readBWT (fun n => decide (n ≤ 2 ^ 20)) readAlphaCount readNat (writeBWT writeAlphaCount writeNat bwtEx 64) =
        some ((bwtEx, 64), []) :=
  ⟨by decide,
    (serialise_round_trip (fun n => decide (n ≤ 2 ^ 20)) writeAlphaCount writeNat readAlphaCount
      readNat saEx rtEx bwtEx 64 (by decide) (by decide) (by decide) (by decide) (by decide) (by decide)
      (fun r => readAlphaCount_write bwtEx.predCount r (by decide) (by decide) (by decide)
        (by decide) (by decide))
      (readNat_line_end 64 (by decide))).2.1⟩

/-- C15, counterexample.  The text "1\n5\nC$A\n0 1 2 3 3\n64" declares `N = 5`
and carries the BWT string "C$A" of length 3; `resize(5)` returns.
`operator>>` does not fail: it reads the index with `numStrings = 1`, BWT string
"C$A" and the cumulative table of the text. -/
theorem readBWT_accepts_wrong_length :
    readNat (textBadLength.drop 2) = some (5, textBadLength.drop 3) ∧
      readWord (textBadLength.drop 3) = some (['C', '$', 'A'], textBadLength.drop 7) ∧
      (5 : Nat) ≠ ['C', '$', 'A'].length ∧
      readBWT (fun n => decide (n ≤ 2 ^ 20)) readAlphaCount readNat textBadLength =
        some ((⟨⟨0, 1, 2, 3, 3⟩, ['C', '$', 'A'], 1⟩, 64), []) := by
  refine ⟨by rfl, by rfl, by decide, by rfl⟩

/-- C15, as the code has it.  `operator>>` reads the declared `N`, resizes the
string to it and does not compare it with the string that follows: for every
text of the persisted layout whose declared `N` differs from the length of its
BWT string token (a non-empty token without white space, counts in the range of
`size_t`), whenever `resize(N)` returns, `operator>>` succeeds and yields the
index that holds the fields of the record, the token as its BWT string.  The
readers of `AlphaCount` and of the rank table are taken to read back what their
writers wrote. -/
theorem readBWT_ignores_declared_length {O : Type} (resizeOk : Nat → Bool)
    (wAC : AlphaCount → List Char) (wOcc : O → List Char)
    (rAC : List Char → Option (AlphaCount × List Char))
    (rOcc : List Char → Option (O × List Char))
    (ns n : Nat) (tok : List Char) (pc : AlphaCount) (occ : O)
    (hAC : ∀ r, rAC ('\n' :: (wAC pc ++ '\n' :: r)) = some (pc, '\n' :: r))
    (hOcc : rOcc ('\n' :: wOcc occ) = some (occ, []))
    (hns : ns < SIZE) (hn : n < SIZE) (hres : resizeOk n = true) (hne : tok ≠ [])
    (htok : ∀ c ∈ tok, isSpace c = false) (_hdiff : n ≠ tok.length) :
    readBWT resizeOk rAC rOcc (writeNat ns ++ ['\n'] ++ writeNat n ++ ['\n'] ++ tok ++ ['\n'] ++
      wAC pc ++ ['\n'] ++ wOcc occ) = some ((⟨pc, tok, ns⟩, occ), []) :=
  readBWT_text resizeOk wAC wOcc rAC rOcc ns n tok pc occ hAC hOcc hns hn hres hne htok

/-- C15 as the code has it, at the record with `numStrings = 1`, declared
`N = 5`, BWT string "C$A", cumulative table `0 1 2 3 3` and rank-table text
`64`, with strings that can be resized to `2 ^ 20` characters. -/
theorem readBWT_ignores_declared_length_witness :
    (5 : Nat) ≠ ['C', '$', 'A'].length ∧
      readBWT (fun n => decide (n ≤ 2 ^ 20)) readAlphaCount readNat
        (writeNat 1 ++ ['\n'] ++ writeNat 5 ++ ['\n'] ++ ['C', '$', 'A'] ++ ['\n'] ++
          writeAlphaCount ⟨0, 1, 2, 3, 3⟩ ++ ['\n'] ++ writeNat 64) =
        some ((⟨⟨0, 1, 2, 3, 3⟩, ['C', '$', 'A'], 1⟩, 64), []) :=
  ⟨by decide,
    readBWT_ignores_declared_length (fun n => decide (n ≤ 2 ^ 20)) writeAlphaCount writeNat
      readAlphaCount readNat 1 5 ['C', '$', 'A'] ⟨0, 1, 2, 3, 3⟩ 64
      (fun r => readAlphaCount_write ⟨0, 1, 2, 3, 3⟩ r (by decide) (by decide) (by decide)
        (by decide) (by decide))
      (readNat_line_end 64 (by decide)) (by decide) (by decide) (by decide) (by decide)
      (by decide) (by decide)⟩

end SGA
